import Mathlib

/-!
Shallow embedding of the Event Hubs partition load balancers
(`GreedyPartitionLoadBalancer` and `FairPartitionLoadBalancer`) from
`partitionLoadBalancer.ts`, together with proofs about their behaviour.

Modelling conventions:

* A JavaScript `Map<string, V>` is an insertion-ordered association list
  `List (String × V)`; `Map.get`, `Map.set`, `Map.has` become `alGet`,
  `alSet`, `alHas`.  `Map.set` on an existing key replaces the value in
  place, preserving the entry's position, exactly as in JavaScript.
* `Math.floor(Math.random() * n)` is modelled by an injected draw
  function `pick : Nat → Nat`; for `n ≥ 1` the JavaScript expression
  always lies in `[0, n)`, which becomes the hypothesis
  `0 < n → pick n < n`.
* Out-of-range array indexing, which in JavaScript yields `undefined`,
  is modelled by `jsIndex` returning `Option`.  The two places where the
  TypeScript code would dereference `undefined` and hence throw (the
  non-null assertion `ownerPartitionMap.get(this._ownerId)!.length` in
  `_shouldOwnMorePartitions`, and the `.partitionId` access on
  `maxList[...]` in `_findPartitionToSteal`) are modelled as
  `Except.error ()`.
* JavaScript numbers holding millisecond timestamps are modelled as
  `Int`.  The truthiness test `partitionOwnership.lastModifiedTimeInMS &&`
  is false for `undefined` and for `0`, and the test
  `partitionOwnership.ownerId` is false for the empty string; both are
  reproduced literally.
-/

/-- Ownership record as read by the balancer: the fields of
`PartitionOwnership` that `partitionLoadBalancer.ts` inspects are
`partitionId`, `ownerId` and the heartbeat `lastModifiedTimeInMS`
(optional in the TypeScript interface, hence `Option`). -/
structure PartitionOwnership where
  partitionId : String
  ownerId : String
  lastModifiedTimeInMS : Option Int
  deriving DecidableEq, Repr

/-- JavaScript array indexing: `l[i]` is the element when `i` is in
range and `undefined` (here `none`) otherwise. -/
def jsIndex {α : Type} (l : List α) (i : Nat) : Option α :=
  l[i]?

/-- `Map.get` on an insertion-ordered association list. -/
def alGet {α : Type} : List (String × α) → String → Option α
  | [], _ => none
  | e :: rest, k => if e.1 = k then some e.2 else alGet rest k

/-- `Map.has` on an insertion-ordered association list. -/
def alHas {α : Type} (m : List (String × α)) (k : String) : Bool :=
  (alGet m k).isSome

/-- `Map.set` on an insertion-ordered association list: replace in place
if the key is present, append otherwise (JavaScript `Map` insertion
order). -/
def alSet {α : Type} : List (String × α) → String → α → List (String × α)
  | [], k, v => [(k, v)]
  | e :: rest, k, v => if e.1 = k then (k, v) :: rest else e :: alSet rest k v

/-- The keys of an association list, in insertion order. -/
def keysOf {α : Type} (m : List (String × α)) : List String :=
  m.map Prod.fst

/-- `GreedyPartitionLoadBalancer.loadBalance`: filter the candidate
partitions down to the watched set (`partitionsToClaim`, built from the
optional constructor argument; `none` means all partitions), then drop
any partition already present as a key in the ownership map. -/
def greedyLoadBalance (partitionsToClaim : Option (List String))
    (partitionOwnershipMap : List (String × PartitionOwnership))
    (partitionsToAdd : List String) : List String :=
  let potential : List String :=
    match partitionsToClaim with
    | some watched => partitionsToAdd.filter (fun part => watched.contains part)
    | none => partitionsToAdd
  potential.filter (fun id => !(alHas partitionOwnershipMap id))

/-- The activity test from `_removeInactivePartitionOwnerships`:
`partitionOwnership.lastModifiedTimeInMS && date.getTime() -
partitionOwnership.lastModifiedTimeInMS < this._inactiveTimeLimitInMS &&
partitionOwnership.ownerId`.  JavaScript truthiness makes a missing or
zero heartbeat and an empty owner id inactive. -/
def isActiveOwnership (now inactiveTimeLimitInMS : Int)
    (po : PartitionOwnership) : Bool :=
  (match po.lastModifiedTimeInMS with
   | some t => decide (t ≠ 0) && decide (now - t < inactiveTimeLimitInMS)
   | none => false)
  && decide (po.ownerId ≠ "")

/-- `FairPartitionLoadBalancer._removeInactivePartitionOwnerships`:
keep exactly the entries whose record passes the activity test (the
source copies them into a fresh map in iteration order, which for a
`Map` input with distinct keys is this filter). -/
def removeInactivePartitionOwnerships (now inactiveTimeLimitInMS : Int)
    (partitionOwnershipMap : List (String × PartitionOwnership)) :
    List (String × PartitionOwnership) :=
  partitionOwnershipMap.filter (fun e => isActiveOwnership now inactiveTimeLimitInMS e.2)

/-- The loop in `loadBalance` that builds `ownerPartitionMap`: for each
active ownership record, push it onto the list stored under its
`ownerId` (creating the list if absent).  `groupStep` is one iteration
of that loop. -/
def groupStep (m : List (String × List PartitionOwnership))
    (e : String × PartitionOwnership) : List (String × List PartitionOwnership) :=
  alSet m e.2.ownerId (((alGet m e.2.ownerId).getD []) ++ [e.2])

/-- The whole `ownerPartitionMap`-building loop of `loadBalance`. -/
def buildOwnerPartitionMap
    (activePartitionOwnershipMap : List (String × PartitionOwnership)) :
    List (String × List PartitionOwnership) :=
  activePartitionOwnershipMap.foldl groupStep []

/-- The step in `loadBalance` that adds the current event processor to
`ownerPartitionMap` if it does not exist. -/
def registerSelf (m : List (String × List PartitionOwnership))
    (ownerId : String) : List (String × List PartitionOwnership) :=
  if alHas m ownerId then m else alSet m ownerId []

/-- The owner-to-partitions view a call of `loadBalance` works with:
records grouped by owner, with the calling instance registered. -/
def ownerPartitionMapOf (ownerId : String)
    (activePartitionOwnershipMap : List (String × PartitionOwnership)) :
    List (String × List PartitionOwnership) :=
  registerSelf (buildOwnerPartitionMap activePartitionOwnershipMap) ownerId

/-- Sum of the lengths of the per-owner partition lists (the loop in
`_shouldOwnMorePartitions` accumulating `sumOfPartitionsOwnedByAnyProcessor`). -/
def sumOwnedLengths : List (String × List PartitionOwnership) → Nat
  | [] => 0
  | e :: rest => e.2.length + sumOwnedLengths rest

/-- `FairPartitionLoadBalancer._isLoadBalanced`: walk the owner map,
returning `false` as soon as an owner holds fewer than
`minPartitionsPerEventProcessor` or more than
`minPartitionsPerEventProcessor + 1` partitions, counting the owners
holding exactly one extra; finally compare the count with
`numberOfEventProcessorsWithAdditionalPartition`. -/
def isLoadBalanced (minPartitionsPerEventProcessor
    numberOfEventProcessorsWithAdditionalPartition count : Nat) :
    List (String × List PartitionOwnership) → Bool
  | [] => count == numberOfEventProcessorsWithAdditionalPartition
  | e :: rest =>
    if e.2.length < minPartitionsPerEventProcessor
        ∨ minPartitionsPerEventProcessor + 1 < e.2.length then
      false
    else
      isLoadBalanced minPartitionsPerEventProcessor
        numberOfEventProcessorsWithAdditionalPartition
        (if e.2.length = minPartitionsPerEventProcessor + 1 then count + 1 else count)
        rest

/-- `FairPartitionLoadBalancer._shouldOwnMorePartitions`.  The source
reads `ownerPartitionMap.get(this._ownerId)!.length`; a missing entry
would dereference `undefined` and throw, modelled as `Except.error`. -/
def shouldOwnMorePartitions (ownerId : String)
    (minPartitionsPerEventProcessor : Nat) (partitionIds : List String)
    (ownerPartitionMap : List (String × List PartitionOwnership)) :
    Except Unit Bool :=
  match alGet ownerPartitionMap ownerId with
  | none => .error ()
  | some owned =>
    let numberOfPartitionsOwned := owned.length
    let sumOfPartitionsOwnedByAnyProcessor := sumOwnedLengths ownerPartitionMap
    .ok (decide (numberOfPartitionsOwned < minPartitionsPerEventProcessor)
      || (decide (sumOfPartitionsOwnedByAnyProcessor < partitionIds.length)
        && decide (numberOfPartitionsOwned < minPartitionsPerEventProcessor + 1)))

/-- One step of the scan in `_findPartitionToSteal`.  The running
maximum starts at `Number.MIN_VALUE`, the smallest positive double, so
a list beats the initial value exactly when its length is at least `1`;
`none` models that initial state. -/
def maxStep (st : List PartitionOwnership × Option Nat)
    (e : String × List PartitionOwnership) :
    List PartitionOwnership × Option Nat :=
  match st.2 with
  | none => if 0 < e.2.length then (e.2, some e.2.length) else st
  | some v => if v < e.2.length then (e.2, some e.2.length) else st

/-- The `maxList` computed by `_findPartitionToSteal`: the partition
list of the first owner reaching the maximum count. -/
def maxOwnedList (ownerPartitionMap : List (String × List PartitionOwnership)) :
    List PartitionOwnership :=
  (ownerPartitionMap.foldl maxStep (([] : List PartitionOwnership), (none : Option Nat))).1

/-- `FairPartitionLoadBalancer._findPartitionToSteal`: steal a random
partition from the owner with the maximum count.  Indexing an empty
`maxList` would give `undefined.partitionId`, a thrown `TypeError`,
modelled as `Except.error`. -/
def findPartitionToSteal (pick : Nat → Nat)
    (ownerPartitionMap : List (String × List PartitionOwnership)) :
    Except Unit String :=
  match jsIndex (maxOwnedList ownerPartitionMap)
      (pick (maxOwnedList ownerPartitionMap).length) with
  | none => .error ()
  | some po => .ok po.partitionId

/-- `FairPartitionLoadBalancer.loadBalance`.  The result list elements
are `Option String` because the bootstrap return
`[partitionsToAdd[Math.floor(Math.random() * partitionsToAdd.length)]]`
can contain `undefined` when `partitionsToAdd` is empty. -/
def loadBalance (ownerId : String) (inactiveTimeLimitInMS now : Int)
    (pick : Nat → Nat)
    (partitionOwnershipMap : List (String × PartitionOwnership))
    (partitionsToAdd : List String) : Except Unit (List (Option String)) :=
  let activePartitionOwnershipMap :=
    removeInactivePartitionOwnerships now inactiveTimeLimitInMS partitionOwnershipMap
  if activePartitionOwnershipMap.length = 0 then
    .ok [jsIndex partitionsToAdd (pick partitionsToAdd.length)]
  else
    let ownerPartitionMap := ownerPartitionMapOf ownerId activePartitionOwnershipMap
    let minPartitionsPerEventProcessor :=
      partitionsToAdd.length / ownerPartitionMap.length
    let numberOfEventProcessorsWithAdditionalPartition :=
      partitionsToAdd.length % ownerPartitionMap.length
    if isLoadBalanced minPartitionsPerEventProcessor
        numberOfEventProcessorsWithAdditionalPartition 0 ownerPartitionMap then
      .ok []
    else
      match shouldOwnMorePartitions ownerId minPartitionsPerEventProcessor
          partitionsToAdd ownerPartitionMap with
      | .error e => .error e
      | .ok false => .ok []
      | .ok true =>
        let unOwnedPartitionIds :=
          partitionsToAdd.filter (fun partitionId => !(alHas activePartitionOwnershipMap partitionId))
        if unOwnedPartitionIds.length = 0 then
          match findPartitionToSteal pick ownerPartitionMap with
          | .error e => .error e
          | .ok partitionToClaim => .ok [some partitionToClaim]
        else
          .ok [jsIndex unOwnedPartitionIds (pick unOwnedPartitionIds.length)]

/-! ### Association list lemmas -/

theorem alGet_alSet_self {α : Type} (m : List (String × α)) (k : String) (v : α) :
    alGet (alSet m k v) k = some v := by
  induction m with
  | nil => simp [alSet, alGet]
  | cons e rest ih =>
    by_cases h : e.1 = k
    · simp [alSet, h, alGet]
    · simp [alSet, h, alGet, ih]

theorem alGet_alSet_ne {α : Type} (m : List (String × α)) {k k2 : String} (v : α)
    (h : k2 ≠ k) : alGet (alSet m k v) k2 = alGet m k2 := by
  have hk : ¬ k = k2 := fun hh => h hh.symm
  induction m with
  | nil => simp [alSet, alGet, hk]
  | cons e rest ih =>
    by_cases he : e.1 = k
    · subst he
      simp [alSet, alGet, hk]
    · simp only [alSet, if_neg he]
      by_cases he2 : e.1 = k2
      · simp [alGet, he2]
      · simp [alGet, he2, ih]

theorem mem_of_alGet_eq_some {α : Type} {m : List (String × α)} {k : String} {v : α}
    (h : alGet m k = some v) : (k, v) ∈ m := by
  induction m with
  | nil => simp [alGet] at h
  | cons e rest ih =>
    by_cases he : e.1 = k
    · simp only [alGet, if_pos he] at h
      obtain rfl : e.2 = v := by injection h
      have : e = (k, e.2) := by
        obtain ⟨a, b⟩ := e
        simp only [Prod.mk.injEq]
        simp only at he
        exact ⟨he, trivial⟩
      rw [← this]
      exact List.mem_cons_self e rest
    · simp only [alGet, if_neg he] at h
      exact List.mem_cons_of_mem _ (ih h)

theorem alGet_eq_some_of_mem {α : Type} {m : List (String × α)}
    (hnd : (keysOf m).Nodup) {k : String} {v : α} (hm : (k, v) ∈ m) :
    alGet m k = some v := by
  induction m with
  | nil => simp at hm
  | cons e rest ih =>
    rcases List.mem_cons.mp hm with he | hr
    · subst he
      simp [alGet]
    · have hk : k ∈ keysOf rest := List.mem_map.mpr ⟨(k, v), hr, rfl⟩
      have hne : e.1 ≠ k := by
        intro hh
        have : e.1 ∉ keysOf rest := (List.nodup_cons.mp hnd).1
        exact this (hh ▸ hk)
      simp only [alGet, if_neg hne]
      exact ih (List.nodup_cons.mp hnd).2 hr

theorem alHas_iff_mem_keysOf {α : Type} (m : List (String × α)) (k : String) :
    alHas m k = true ↔ k ∈ keysOf m := by
  induction m with
  | nil => simp [alHas, alGet, keysOf]
  | cons e rest ih =>
    by_cases he : e.1 = k
    · simp [alHas, alGet, he, keysOf]
    · simp only [alHas, alGet, if_neg he, keysOf, List.map_cons, List.mem_cons]
      rw [show (alGet rest k).isSome = alHas rest k from rfl]
      rw [ih]
      simp only [keysOf]
      constructor
      · intro hk
        exact Or.inr hk
      · rintro (hk | hk)
        · exact absurd hk.symm he
        · exact hk

theorem alHas_false_iff {α : Type} (m : List (String × α)) (k : String) :
    alHas m k = false ↔ ¬ k ∈ keysOf m := by
  rw [← alHas_iff_mem_keysOf]
  simp

theorem alSet_of_not_has {α : Type} {m : List (String × α)} {k : String}
    (h : alHas m k = false) (v : α) : alSet m k v = m ++ [(k, v)] := by
  induction m with
  | nil => simp [alSet]
  | cons e rest ih =>
    have hne : e.1 ≠ k := by
      intro hh
      rw [alHas_false_iff] at h
      exact h (by simp [keysOf, hh])
    have hr : alHas rest k = false := by
      rw [alHas_false_iff] at h ⊢
      intro hk
      exact h (by simp [keysOf] at hk ⊢; right; exact hk)
    simp [alSet, hne, ih hr]

theorem keysOf_alSet_of_has {α : Type} {m : List (String × α)} {k : String}
    (h : alHas m k = true) (v : α) : keysOf (alSet m k v) = keysOf m := by
  induction m with
  | nil => simp [alHas, alGet] at h
  | cons e rest ih =>
    by_cases he : e.1 = k
    · simp [alSet, he, keysOf]
    · have hr : alHas rest k = true := by
        simp only [alHas, alGet, if_neg he] at h
        exact h
      simp [alSet, he, keysOf, ih hr]
      exact ih hr

theorem nodup_keysOf_alSet {α : Type} {m : List (String × α)}
    (hnd : (keysOf m).Nodup) (k : String) (v : α) :
    (keysOf (alSet m k v)).Nodup := by
  by_cases h : alHas m k = true
  · rw [keysOf_alSet_of_has h]
    exact hnd
  · rw [alSet_of_not_has (Bool.eq_false_iff.mpr h) v]
    have hk : ¬ k ∈ keysOf m := (alHas_false_iff m k).mp (Bool.eq_false_iff.mpr h)
    simp only [keysOf, List.map_append, List.map_cons, List.map_nil]
    rw [List.nodup_append]
    refine ⟨hnd, List.nodup_singleton k, ?_⟩
    intro x hx hx2
    simp at hx2
    exact hk (hx2 ▸ hx)

theorem mem_alSet {α : Type} {m : List (String × α)} {k : String} {v : α}
    {e : String × α} (h : e ∈ alSet m k v) : e ∈ m ∨ e = (k, v) := by
  induction m with
  | nil => simp [alSet] at h; right; simp [h]
  | cons e2 rest ih =>
    by_cases he : e2.1 = k
    · simp only [alSet, if_pos he] at h
      rcases List.mem_cons.mp h with h1 | h2
      · right; exact h1
      · left; exact List.mem_cons_of_mem _ h2
    · simp only [alSet, if_neg he] at h
      rcases List.mem_cons.mp h with h1 | h2
      · left; simp [h1]
      · rcases ih h2 with h3 | h3
        · left; exact List.mem_cons_of_mem _ h3
        · right; exact h3

/-! ### Sum lemmas -/

theorem sumOwnedLengths_append (m m2 : List (String × List PartitionOwnership)) :
    sumOwnedLengths (m ++ m2) = sumOwnedLengths m + sumOwnedLengths m2 := by
  induction m with
  | nil => simp [sumOwnedLengths]
  | cons e rest ih => simp [sumOwnedLengths, ih]; omega

theorem sumOwnedLengths_alSet_of_get {m : List (String × List PartitionOwnership)}
    {k : String} {l : List PartitionOwnership} (h : alGet m k = some l)
    (v : List PartitionOwnership) :
    sumOwnedLengths (alSet m k v) + l.length = sumOwnedLengths m + v.length := by
  induction m with
  | nil => simp [alGet] at h
  | cons e rest ih =>
    by_cases he : e.1 = k
    · simp only [alGet, if_pos he] at h
      obtain rfl : e.2 = l := by injection h
      simp only [alSet, if_pos he, sumOwnedLengths]
      omega
    · simp only [alGet, if_neg he] at h
      simp only [alSet, if_neg he, sumOwnedLengths]
      have := ih h
      omega

theorem sumOwnedLengths_alSet_of_not_has {m : List (String × List PartitionOwnership)}
    {k : String} (h : alHas m k = false) (v : List PartitionOwnership) :
    sumOwnedLengths (alSet m k v) = sumOwnedLengths m + v.length := by
  rw [alSet_of_not_has h v, sumOwnedLengths_append]
  simp [sumOwnedLengths]

/-! ### Grouping by owner -/

/-- The records of `a` owned by `o`, in ledger order: the list that ends
up stored under key `o` in `buildOwnerPartitionMap a`. -/
def ownedBy (o : String) (a : List (String × PartitionOwnership)) :
    List PartitionOwnership :=
  (a.map Prod.snd).filter (fun po => po.ownerId == o)

theorem ownedBy_nil (o : String) : ownedBy o [] = [] := rfl

theorem ownedBy_cons (o : String) (e : String × PartitionOwnership)
    (a : List (String × PartitionOwnership)) :
    ownedBy o (e :: a) =
      if e.2.ownerId = o then e.2 :: ownedBy o a else ownedBy o a := by
  simp only [ownedBy, List.map_cons, List.filter_cons]
  by_cases h : e.2.ownerId = o <;> simp [h]

theorem mem_ownedBy {o : String} {a : List (String × PartitionOwnership)}
    {po : PartitionOwnership} :
    po ∈ ownedBy o a ↔ po ∈ a.map Prod.snd ∧ po.ownerId = o := by
  simp [ownedBy, List.mem_filter]

theorem length_ownedBy (o : String) (a : List (String × PartitionOwnership)) :
    (ownedBy o a).length = a.countP (fun e => e.2.ownerId == o) := by
  simp only [ownedBy, ← List.countP_eq_length_filter, List.countP_map]
  congr 1

theorem alGet_foldl_groupStep_some (a : List (String × PartitionOwnership)) :
    ∀ (m : List (String × List PartitionOwnership)) (o : String)
      (l : List PartitionOwnership), alGet m o = some l →
      alGet (a.foldl groupStep m) o = some (l ++ ownedBy o a) := by
  induction a with
  | nil =>
    intro m o l h
    simp [ownedBy, h]
  | cons e a ih =>
    intro m o l h
    rw [List.foldl_cons]
    by_cases hh : e.2.ownerId = o
    · have h2 : alGet (groupStep m e) o = some (l ++ [e.2]) := by
        simp only [groupStep, hh, h, Option.getD_some]
        exact alGet_alSet_self m o (l ++ [e.2])
      rw [ih (groupStep m e) o (l ++ [e.2]) h2, ownedBy_cons, if_pos hh]
      simp
    · have h2 : alGet (groupStep m e) o = alGet m o := by
        simp only [groupStep]
        exact alGet_alSet_ne m _ (fun hc => hh hc.symm)
      rw [ih (groupStep m e) o l (h2.trans h), ownedBy_cons, if_neg hh]

theorem alGet_foldl_groupStep_none (a : List (String × PartitionOwnership)) :
    ∀ (m : List (String × List PartitionOwnership)) (o : String),
      alGet m o = none →
      alGet (a.foldl groupStep m) o =
        if ownedBy o a = [] then none else some (ownedBy o a) := by
  induction a with
  | nil =>
    intro m o h
    simp [ownedBy, h]
  | cons e a ih =>
    intro m o h
    rw [List.foldl_cons]
    by_cases hh : e.2.ownerId = o
    · have h2 : alGet (groupStep m e) o = some [e.2] := by
        simp only [groupStep, hh, h, Option.getD_none, List.nil_append]
        exact alGet_alSet_self m o [e.2]
      rw [alGet_foldl_groupStep_some a (groupStep m e) o [e.2] h2]
      rw [ownedBy_cons, if_pos hh]
      simp
    · have h2 : alGet (groupStep m e) o = alGet m o := by
        simp only [groupStep]
        exact alGet_alSet_ne m _ (fun hc => hh hc.symm)
      rw [ih (groupStep m e) o (h2.trans h), ownedBy_cons, if_neg hh]

theorem alGet_buildOwnerPartitionMap (a : List (String × PartitionOwnership))
    (o : String) :
    alGet (buildOwnerPartitionMap a) o =
      if ownedBy o a = [] then none else some (ownedBy o a) :=
  alGet_foldl_groupStep_none a [] o rfl

theorem alHas_buildOwnerPartitionMap (a : List (String × PartitionOwnership))
    (o : String) :
    alHas (buildOwnerPartitionMap a) o = true ↔ ownedBy o a ≠ [] := by
  rw [alHas, alGet_buildOwnerPartitionMap]
  by_cases h : ownedBy o a = [] <;> simp [h]

theorem nodup_keysOf_foldl_groupStep (a : List (String × PartitionOwnership)) :
    ∀ (m : List (String × List PartitionOwnership)),
      (keysOf m).Nodup → (keysOf (a.foldl groupStep m)).Nodup := by
  induction a with
  | nil => intro m h; exact h
  | cons e a ih =>
    intro m h
    rw [List.foldl_cons]
    exact ih (groupStep m e) (nodup_keysOf_alSet h _ _)

theorem nodup_keysOf_buildOwnerPartitionMap (a : List (String × PartitionOwnership)) :
    (keysOf (buildOwnerPartitionMap a)).Nodup :=
  nodup_keysOf_foldl_groupStep a [] (by simp [keysOf])

theorem sumOwnedLengths_foldl_groupStep (a : List (String × PartitionOwnership)) :
    ∀ (m : List (String × List PartitionOwnership)),
      sumOwnedLengths (a.foldl groupStep m) = sumOwnedLengths m + a.length := by
  induction a with
  | nil => intro m; simp
  | cons e a ih =>
    intro m
    rw [List.foldl_cons, ih (groupStep m e)]
    have hstep : sumOwnedLengths (groupStep m e) = sumOwnedLengths m + 1 := by
      unfold groupStep
      cases hget : alGet m e.2.ownerId with
      | some l =>
        have := sumOwnedLengths_alSet_of_get hget (l ++ [e.2])
        simp only [hget, Option.getD_some]
        simp at this
        omega
      | none =>
        have hhas : alHas m e.2.ownerId = false := by
          simp [alHas, hget]
        simp only [Option.getD_none, List.nil_append]
        rw [sumOwnedLengths_alSet_of_not_has hhas]
        simp
    rw [hstep]
    simp
    omega

theorem sumOwnedLengths_buildOwnerPartitionMap
    (a : List (String × PartitionOwnership)) :
    sumOwnedLengths (buildOwnerPartitionMap a) = a.length := by
  rw [buildOwnerPartitionMap, sumOwnedLengths_foldl_groupStep]
  simp [sumOwnedLengths]

/-! ### Self-registration lemmas -/

theorem alGet_registerSelf_self (m : List (String × List PartitionOwnership))
    (me : String) :
    alGet (registerSelf m me) me = some ((alGet m me).getD []) := by
  unfold registerSelf
  by_cases h : alHas m me = true
  · rw [if_pos h]
    obtain ⟨l, hl⟩ := Option.isSome_iff_exists.mp h
    simp [hl]
  · rw [if_neg (by simpa using h)]
    have hn : alGet m me = none := by
      cases hg : alGet m me with
      | none => rfl
      | some l => exact absurd (by simp [alHas, hg]) h
    rw [alGet_alSet_self, hn]
    simp

theorem alGet_registerSelf_ne (m : List (String × List PartitionOwnership))
    {me k : String} (h : k ≠ me) :
    alGet (registerSelf m me) k = alGet m k := by
  unfold registerSelf
  by_cases hh : alHas m me = true
  · rw [if_pos hh]
  · rw [if_neg (by simpa using hh)]
    exact alGet_alSet_ne m _ h

theorem mem_registerSelf {m : List (String × List PartitionOwnership)}
    {me : String} {e : String × List PartitionOwnership}
    (h : e ∈ registerSelf m me) :
    e ∈ m ∨ (e = (me, []) ∧ alHas m me = false) := by
  unfold registerSelf at h
  by_cases hh : alHas m me = true
  · rw [if_pos hh] at h
    exact Or.inl h
  · rw [if_neg (by simpa using hh)] at h
    rcases mem_alSet h with h1 | h1
    · exact Or.inl h1
    · exact Or.inr ⟨h1, by simpa using hh⟩

theorem mem_registerSelf_of_mem {m : List (String × List PartitionOwnership)}
    {e : String × List PartitionOwnership} (me : String) (h : e ∈ m) :
    e ∈ registerSelf m me := by
  unfold registerSelf
  by_cases hh : alHas m me = true
  · rw [if_pos hh]; exact h
  · rw [if_neg (by simpa using hh)]
    rw [alSet_of_not_has (by simpa using hh)]
    exact List.mem_append_left _ h

theorem sumOwnedLengths_registerSelf (m : List (String × List PartitionOwnership))
    (me : String) : sumOwnedLengths (registerSelf m me) = sumOwnedLengths m := by
  unfold registerSelf
  by_cases hh : alHas m me = true
  · rw [if_pos hh]
  · rw [if_neg (by simpa using hh)]
    rw [sumOwnedLengths_alSet_of_not_has (by simpa using hh)]
    simp

theorem nodup_keysOf_registerSelf {m : List (String × List PartitionOwnership)}
    (hnd : (keysOf m).Nodup) (me : String) :
    (keysOf (registerSelf m me)).Nodup := by
  unfold registerSelf
  by_cases hh : alHas m me = true
  · rw [if_pos hh]; exact hnd
  · rw [if_neg (by simpa using hh)]
    exact nodup_keysOf_alSet hnd me []

theorem alHas_registerSelf (m : List (String × List PartitionOwnership))
    (me k : String) :
    alHas (registerSelf m me) k = true ↔ (alHas m k = true ∨ k = me) := by
  by_cases hk : k = me
  · subst hk
    simp only [alHas, alGet_registerSelf_self]
    simp
  · rw [alHas, alGet_registerSelf_ne m hk, ← alHas]
    simp [hk]

theorem length_registerSelf (m : List (String × List PartitionOwnership))
    (me : String) :
    (registerSelf m me).length =
      if alHas m me = true then m.length else m.length + 1 := by
  unfold registerSelf
  by_cases hh : alHas m me = true
  · simp [hh]
  · rw [if_neg (by simpa using hh), if_neg hh]
    rw [alSet_of_not_has (by simpa using hh)]
    simp

/-! ### The owner map of a call -/

theorem alGet_ownerPartitionMapOf_self (me : String)
    (a : List (String × PartitionOwnership)) :
    alGet (ownerPartitionMapOf me a) me = some (ownedBy me a) := by
  rw [ownerPartitionMapOf, alGet_registerSelf_self, alGet_buildOwnerPartitionMap]
  by_cases h : ownedBy me a = [] <;> simp [h]

theorem alGet_ownerPartitionMapOf_ne (me : String)
    (a : List (String × PartitionOwnership)) {k : String} (h : k ≠ me)
    (hne : ownedBy k a ≠ []) :
    alGet (ownerPartitionMapOf me a) k = some (ownedBy k a) := by
  rw [ownerPartitionMapOf, alGet_registerSelf_ne _ h, alGet_buildOwnerPartitionMap]
  simp [hne]

theorem entry_ownerPartitionMapOf {me : String}
    {a : List (String × PartitionOwnership)} {e : String × List PartitionOwnership}
    (h : e ∈ ownerPartitionMapOf me a) : e.2 = ownedBy e.1 a := by
  rcases mem_registerSelf h with hm | ⟨he, hh⟩
  · have hmem : (e.1, e.2) ∈ buildOwnerPartitionMap a := by
      simpa using hm
    have := alGet_eq_some_of_mem (nodup_keysOf_buildOwnerPartitionMap a) hmem
    rw [alGet_buildOwnerPartitionMap] at this
    by_cases hb : ownedBy e.1 a = []
    · rw [if_pos hb] at this
      exact absurd this (by simp)
    · rw [if_neg hb] at this
      injection this.symm
  · have hb : ownedBy me a = [] := by
      by_contra hc
      rw [show (alHas (buildOwnerPartitionMap a) me = false) ↔
        ¬ (alHas (buildOwnerPartitionMap a) me = true) by simp] at hh
      exact hh ((alHas_buildOwnerPartitionMap a me).mpr hc)
    rw [he]
    simpa [he] using hb.symm

theorem nodup_keysOf_ownerPartitionMapOf (me : String)
    (a : List (String × PartitionOwnership)) :
    (keysOf (ownerPartitionMapOf me a)).Nodup :=
  nodup_keysOf_registerSelf (nodup_keysOf_buildOwnerPartitionMap a) me

theorem sumOwnedLengths_ownerPartitionMapOf (me : String)
    (a : List (String × PartitionOwnership)) :
    sumOwnedLengths (ownerPartitionMapOf me a) = a.length := by
  rw [ownerPartitionMapOf, sumOwnedLengths_registerSelf,
    sumOwnedLengths_buildOwnerPartitionMap]

theorem alHas_ownerPartitionMapOf (me : String)
    (a : List (String × PartitionOwnership)) (k : String) :
    alHas (ownerPartitionMapOf me a) k = true ↔ (ownedBy k a ≠ [] ∨ k = me) := by
  rw [ownerPartitionMapOf, alHas_registerSelf, alHas_buildOwnerPartitionMap]

theorem ownerPartitionMapOf_ne_nil (me : String)
    (a : List (String × PartitionOwnership)) :
    ownerPartitionMapOf me a ≠ [] := by
  intro h
  have := alGet_ownerPartitionMapOf_self me a
  rw [h] at this
  simp [alGet] at this

theorem length_ownerPartitionMapOf_pos (me : String)
    (a : List (String × PartitionOwnership)) :
    0 < (ownerPartitionMapOf me a).length := by
  cases hm : ownerPartitionMapOf me a with
  | nil => exact absurd hm (ownerPartitionMapOf_ne_nil me a)
  | cons e rest => simp

/-! ### Characterisation of the balance check -/

theorem isLoadBalanced_iff (minP extra : Nat)
    (m : List (String × List PartitionOwnership)) : ∀ (c : Nat),
    isLoadBalanced minP extra c m = true ↔
      ((∀ e ∈ m, minP ≤ e.2.length ∧ e.2.length ≤ minP + 1) ∧
        c + m.countP (fun e => decide (e.2.length = minP + 1)) = extra) := by
  induction m with
  | nil =>
    intro c
    simp [isLoadBalanced]
  | cons e rest ih =>
    intro c
    by_cases h : e.2.length < minP ∨ minP + 1 < e.2.length
    · rw [show isLoadBalanced minP extra c (e :: rest) = false by
        simp [isLoadBalanced, h]]
      simp only [Bool.false_eq_true, false_iff]
      rintro ⟨hall, -⟩
      have := hall e (List.mem_cons_self e rest)
      omega
    · rw [show isLoadBalanced minP extra c (e :: rest) =
          isLoadBalanced minP extra
            (if e.2.length = minP + 1 then c + 1 else c) rest by
        simp [isLoadBalanced, h]]
      rw [ih]
      simp only [List.mem_cons, List.countP_cons]
      constructor
      · rintro ⟨hall, hc⟩
        refine ⟨?_, ?_⟩
        · rintro e2 (rfl | h2)
          · omega
          · exact hall e2 h2
        · by_cases he : e.2.length = minP + 1 <;> simp [he] at hc ⊢ <;> omega
      · rintro ⟨hall, hc⟩
        refine ⟨fun e2 h2 => hall e2 (Or.inr h2), ?_⟩
        by_cases he : e.2.length = minP + 1 <;> simp [he] at hc ⊢ <;> omega

theorem sumOwnedLengths_of_range {minP : Nat} :
    ∀ (m : List (String × List PartitionOwnership)),
    (∀ e ∈ m, minP ≤ e.2.length ∧ e.2.length ≤ minP + 1) →
    sumOwnedLengths m =
      minP * m.length + m.countP (fun e => decide (e.2.length = minP + 1)) := by
  intro m
  induction m with
  | nil => simp [sumOwnedLengths]
  | cons e rest ih =>
    intro hall
    have he := hall e (List.mem_cons_self e rest)
    have hr := ih (fun e2 h2 => hall e2 (List.mem_cons_of_mem e h2))
    simp only [sumOwnedLengths, List.countP_cons, List.length_cons, Nat.mul_succ]
    by_cases hc : e.2.length = minP + 1 <;> simp [hc] <;> omega

/-- A balanced owner map accounts for exactly
`minP * (number of owners) + extra` owned records. -/
theorem sumOwnedLengths_of_isLoadBalanced {minP extra : Nat}
    {m : List (String × List PartitionOwnership)}
    (h : isLoadBalanced minP extra 0 m = true) :
    sumOwnedLengths m = minP * m.length + extra := by
  obtain ⟨hall, hc⟩ := (isLoadBalanced_iff minP extra m 0).mp h
  rw [sumOwnedLengths_of_range m hall]
  omega

/-! ### The steal scan -/

/-- Invariant tying the running `maxList` to the running maximum in
`_findPartitionToSteal`: `none` is the initial `Number.MIN_VALUE` state. -/
def maxInv (st : List PartitionOwnership × Option Nat) : Prop :=
  (st.2 = none → st.1 = []) ∧ (∀ v, st.2 = some v → st.1.length = v ∧ 1 ≤ v)

theorem maxInv_init : maxInv (([] : List PartitionOwnership), (none : Option Nat)) := by
  constructor
  · intro _; rfl
  · intro v hv; simp at hv

theorem maxStep_none (lst : List PartitionOwnership)
    (e : String × List PartitionOwnership) :
    maxStep (lst, none) e =
      if 0 < e.2.length then (e.2, some e.2.length) else (lst, none) := rfl

theorem maxStep_some (lst : List PartitionOwnership) (v : Nat)
    (e : String × List PartitionOwnership) :
    maxStep (lst, some v) e =
      if v < e.2.length then (e.2, some e.2.length) else (lst, some v) := rfl

theorem maxInv_maxStep {st : List PartitionOwnership × Option Nat}
    (h : maxInv st) (e : String × List PartitionOwnership) :
    maxInv (maxStep st e) := by
  obtain ⟨lst, os⟩ := st
  cases os with
  | none =>
    rw [maxStep_none]
    by_cases hl : 0 < e.2.length
    · rw [if_pos hl]
      exact ⟨by simp, by intro v hv; simp at hv; simp [hv]; omega⟩
    · rw [if_neg hl]
      exact h
  | some v =>
    obtain ⟨h1, h2⟩ := h.2 v rfl
    rw [maxStep_some]
    by_cases hl : v < e.2.length
    · rw [if_pos hl]
      exact ⟨by simp, by intro w hw; simp at hw; simp [hw]; omega⟩
    · rw [if_neg hl]
      exact h

theorem length_le_maxStep {st : List PartitionOwnership × Option Nat}
    (h : maxInv st) (e : String × List PartitionOwnership) :
    st.1.length ≤ (maxStep st e).1.length := by
  obtain ⟨lst, os⟩ := st
  cases os with
  | none =>
    have h1 : lst = [] := h.1 rfl
    rw [maxStep_none]
    by_cases hl : 0 < e.2.length
    · rw [if_pos hl, h1]
      simp
    · rw [if_neg hl]
  | some v =>
    obtain ⟨h1, h2⟩ := h.2 v rfl
    rw [maxStep_some]
    simp only at h1
    by_cases hl : v < e.2.length
    · rw [if_pos hl]
      simp only
      omega
    · rw [if_neg hl]

theorem self_le_maxStep {st : List PartitionOwnership × Option Nat}
    (h : maxInv st) (e : String × List PartitionOwnership) :
    e.2.length ≤ (maxStep st e).1.length := by
  obtain ⟨lst, os⟩ := st
  cases os with
  | none =>
    have h1 : lst = [] := h.1 rfl
    rw [maxStep_none]
    by_cases hl : 0 < e.2.length
    · rw [if_pos hl]
    · rw [if_neg hl, h1]
      simp only [List.length_nil]
      omega
  | some v =>
    obtain ⟨h1, h2⟩ := h.2 v rfl
    rw [maxStep_some]
    simp only at h1
    by_cases hl : v < e.2.length
    · rw [if_pos hl]
    · rw [if_neg hl]
      simp only
      omega

theorem foldl_maxStep_mono (m : List (String × List PartitionOwnership)) :
    ∀ (st : List PartitionOwnership × Option Nat), maxInv st →
      st.1.length ≤ (m.foldl maxStep st).1.length ∧ maxInv (m.foldl maxStep st) := by
  induction m with
  | nil => intro st h; exact ⟨Nat.le_refl _, h⟩
  | cons e rest ih =>
    intro st h
    rw [List.foldl_cons]
    obtain ⟨h1, h2⟩ := ih (maxStep st e) (maxInv_maxStep h e)
    exact ⟨Nat.le_trans (length_le_maxStep h e) h1, h2⟩

theorem le_foldl_maxStep (m : List (String × List PartitionOwnership)) :
    ∀ (st : List PartitionOwnership × Option Nat), maxInv st →
      ∀ e ∈ m, e.2.length ≤ (m.foldl maxStep st).1.length := by
  induction m with
  | nil => intro st _ e he; simp at he
  | cons e2 rest ih =>
    intro st h e he
    rw [List.foldl_cons]
    rcases List.mem_cons.mp he with rfl | hr
    · exact Nat.le_trans (self_le_maxStep h e)
        (foldl_maxStep_mono rest (maxStep st e) (maxInv_maxStep h e)).1
    · exact ih (maxStep st e2) (maxInv_maxStep h e2) e hr

theorem le_maxOwnedList {m : List (String × List PartitionOwnership)} :
    ∀ e ∈ m, e.2.length ≤ (maxOwnedList m).length :=
  le_foldl_maxStep m _ maxInv_init

theorem foldl_maxStep_cases (m : List (String × List PartitionOwnership)) :
    ∀ (st : List PartitionOwnership × Option Nat),
      (m.foldl maxStep st).1 = st.1 ∨ ∃ e ∈ m, (m.foldl maxStep st).1 = e.2 := by
  induction m with
  | nil => intro st; exact Or.inl rfl
  | cons e rest ih =>
    intro st
    rw [List.foldl_cons]
    rcases ih (maxStep st e) with h | ⟨e2, he2, h⟩
    · rw [h]
      unfold maxStep
      cases st.2 with
      | none =>
        by_cases hl : 0 < e.2.length
        · exact Or.inr ⟨e, List.mem_cons_self e rest, by simp [hl]⟩
        · exact Or.inl (by simp [hl])
      | some v =>
        by_cases hl : v < e.2.length
        · exact Or.inr ⟨e, List.mem_cons_self e rest, by simp [hl]⟩
        · exact Or.inl (by simp [hl])
    · exact Or.inr ⟨e2, List.mem_cons_of_mem e he2, h⟩

theorem maxOwnedList_cases (m : List (String × List PartitionOwnership)) :
    maxOwnedList m = [] ∨ ∃ e ∈ m, maxOwnedList m = e.2 :=
  foldl_maxStep_cases m _

theorem maxOwnedList_ne_nil {m : List (String × List PartitionOwnership)}
    (h : ∃ e ∈ m, e.2 ≠ []) : maxOwnedList m ≠ [] := by
  obtain ⟨e, hm, hne⟩ := h
  have h1 : 1 ≤ e.2.length := by
    cases he : e.2 with
    | nil => exact absurd he hne
    | cons x xs => simp
  have h2 := le_maxOwnedList e hm
  intro hc
  rw [hc, List.length_nil] at h2
  omega

theorem sumOwnedLengths_le {b : Nat} :
    ∀ (m : List (String × List PartitionOwnership)),
    (∀ e ∈ m, e.2.length ≤ b) → sumOwnedLengths m ≤ m.length * b := by
  intro m
  induction m with
  | nil => simp [sumOwnedLengths]
  | cons e rest ih =>
    intro h
    have he := h e (List.mem_cons_self e rest)
    have hr := ih (fun e2 h2 => h e2 (List.mem_cons_of_mem e h2))
    simp only [sumOwnedLengths, List.length_cons, Nat.succ_mul]
    omega

/-! ### Branch lemmas for loadBalance -/

theorem shouldOwnMorePartitions_eq {me : String} {minP : Nat}
    {cands : List String} {m : List (String × List PartitionOwnership)}
    {owned : List PartitionOwnership} (h : alGet m me = some owned) :
    shouldOwnMorePartitions me minP cands m =
      .ok (decide (owned.length < minP)
        || (decide (sumOwnedLengths m < cands.length)
          && decide (owned.length < minP + 1))) := by
  unfold shouldOwnMorePartitions
  rw [h]

theorem loadBalance_bootstrap {me : String} {limit now : Int} {pick : Nat → Nat}
    {ledger : List (String × PartitionOwnership)} {cands : List String}
    (h : removeInactivePartitionOwnerships now limit ledger = []) :
    loadBalance me limit now pick ledger cands =
      .ok [jsIndex cands (pick cands.length)] := by
  simp only [loadBalance, h]
  simp

theorem loadBalance_balanced {me : String} {limit now : Int} {pick : Nat → Nat}
    {ledger : List (String × PartitionOwnership)} {cands : List String}
    (hA : removeInactivePartitionOwnerships now limit ledger ≠ [])
    (hb : isLoadBalanced
        (cands.length /
          (ownerPartitionMapOf me (removeInactivePartitionOwnerships now limit ledger)).length)
        (cands.length %
          (ownerPartitionMapOf me (removeInactivePartitionOwnerships now limit ledger)).length)
        0 (ownerPartitionMapOf me (removeInactivePartitionOwnerships now limit ledger)) = true) :
    loadBalance me limit now pick ledger cands = .ok [] := by
  simp only [loadBalance]
  rw [if_neg (by simp [List.length_eq_zero, hA])]
  rw [if_pos hb]

theorem loadBalance_no_growth {me : String} {limit now : Int} {pick : Nat → Nat}
    {ledger : List (String × PartitionOwnership)} {cands : List String}
    (hA : removeInactivePartitionOwnerships now limit ledger ≠ [])
    (hb : isLoadBalanced
        (cands.length /
          (ownerPartitionMapOf me (removeInactivePartitionOwnerships now limit ledger)).length)
        (cands.length %
          (ownerPartitionMapOf me (removeInactivePartitionOwnerships now limit ledger)).length)
        0 (ownerPartitionMapOf me (removeInactivePartitionOwnerships now limit ledger)) = false)
    (hs : shouldOwnMorePartitions me
        (cands.length /
          (ownerPartitionMapOf me (removeInactivePartitionOwnerships now limit ledger)).length)
        cands (ownerPartitionMapOf me (removeInactivePartitionOwnerships now limit ledger)) =
        .ok false) :
    loadBalance me limit now pick ledger cands = .ok [] := by
  simp only [loadBalance]
  rw [if_neg (by simp [List.length_eq_zero, hA])]
  rw [if_neg (by simp [hb])]
  rw [hs]

theorem loadBalance_unowned {me : String} {limit now : Int} {pick : Nat → Nat}
    {ledger : List (String × PartitionOwnership)} {cands : List String}
    (hA : removeInactivePartitionOwnerships now limit ledger ≠ [])
    (hb : isLoadBalanced
        (cands.length /
          (ownerPartitionMapOf me (removeInactivePartitionOwnerships now limit ledger)).length)
        (cands.length %
          (ownerPartitionMapOf me (removeInactivePartitionOwnerships now limit ledger)).length)
        0 (ownerPartitionMapOf me (removeInactivePartitionOwnerships now limit ledger)) = false)
    (hs : shouldOwnMorePartitions me
        (cands.length /
          (ownerPartitionMapOf me (removeInactivePartitionOwnerships now limit ledger)).length)
        cands (ownerPartitionMapOf me (removeInactivePartitionOwnerships now limit ledger)) =
        .ok true)
    (hu : cands.filter
        (fun partitionId =>
          !(alHas (removeInactivePartitionOwnerships now limit ledger) partitionId)) ≠ []) :
    loadBalance me limit now pick ledger cands =
      .ok [jsIndex
        (cands.filter (fun partitionId =>
          !(alHas (removeInactivePartitionOwnerships now limit ledger) partitionId)))
        (pick (cands.filter (fun partitionId =>
          !(alHas (removeInactivePartitionOwnerships now limit ledger) partitionId))).length)] := by
  simp only [loadBalance]
  rw [if_neg (by simp [List.length_eq_zero, hA])]
  rw [if_neg (by simp [hb])]
  rw [hs]
  simp only
  rw [if_neg (by simp [List.length_eq_zero, hu])]

theorem loadBalance_steal {me : String} {limit now : Int} {pick : Nat → Nat}
    {ledger : List (String × PartitionOwnership)} {cands : List String}
    (hA : removeInactivePartitionOwnerships now limit ledger ≠ [])
    (hb : isLoadBalanced
        (cands.length /
          (ownerPartitionMapOf me (removeInactivePartitionOwnerships now limit ledger)).length)
        (cands.length %
          (ownerPartitionMapOf me (removeInactivePartitionOwnerships now limit ledger)).length)
        0 (ownerPartitionMapOf me (removeInactivePartitionOwnerships now limit ledger)) = false)
    (hs : shouldOwnMorePartitions me
        (cands.length /
          (ownerPartitionMapOf me (removeInactivePartitionOwnerships now limit ledger)).length)
        cands (ownerPartitionMapOf me (removeInactivePartitionOwnerships now limit ledger)) =
        .ok true)
    (hu : cands.filter
        (fun partitionId =>
          !(alHas (removeInactivePartitionOwnerships now limit ledger) partitionId)) = []) :
    loadBalance me limit now pick ledger cands =
      match findPartitionToSteal pick
          (ownerPartitionMapOf me (removeInactivePartitionOwnerships now limit ledger)) with
      | .error e => .error e
      | .ok partitionToClaim => .ok [some partitionToClaim] := by
  simp only [loadBalance]
  rw [if_neg (by simp [List.length_eq_zero, hA])]
  rw [if_neg (by simp [hb])]
  rw [hs]
  simp only
  rw [if_pos (by simp [hu])]

/-! ### Claim C8: greedy pin filter -/

/-- C8: `GreedyPartitionLoadBalancer.loadBalance` returns exactly the
candidate partitions that are in the watched set (all candidates when no
watched set was given) and are not present as keys in the ledger, in
candidate-list order with no single-partition limit; in particular with
watched set `["0","2"]`, candidates `["0","1","2","3"]` and an empty
ledger it returns `["0","2"]`, and with a ledger already containing key
`"0"` it returns `["2"]`. -/
theorem C8_greedy_pin_filter :
    (∀ (watched : List String) (ledger : List (String × PartitionOwnership))
        (cands : List String),
      greedyLoadBalance (some watched) ledger cands =
        cands.filter (fun p => watched.contains p && !(alHas ledger p)))
    ∧ (∀ (ledger : List (String × PartitionOwnership)) (cands : List String),
      greedyLoadBalance none ledger cands =
        cands.filter (fun p => !(alHas ledger p)))
    ∧ greedyLoadBalance (some ["0", "2"]) [] ["0", "1", "2", "3"] = ["0", "2"]
    ∧ (∀ po : PartitionOwnership,
      greedyLoadBalance (some ["0", "2"]) [("0", po)] ["0", "1", "2", "3"] = ["2"]) := by
  refine ⟨?_, ?_, ?_, ?_⟩
  · intro watched ledger cands
    simp only [greedyLoadBalance, List.filter_filter]
    congr 1
    funext p
    exact Bool.and_comm _ _
  · intro ledger cands
    rfl
  · rfl
  · intro po
    simp [greedyLoadBalance, alHas, alGet, List.filter]

/-! ### Claim C6: empty candidate list -/

/-- C6 (code bug): with an empty candidate list and an empty active
ownership view, the bootstrap path of `loadBalance` evaluates
`partitionsToAdd[Math.floor(Math.random() * 0)]` on an empty array and
returns a one-element list containing `undefined` (modelled `none`),
not the empty claim list the spec requires; the declared return type
`string[]` is violated at runtime. -/
theorem C6_empty_candidates_bootstrap (me : String) (limit now : Int)
    (pick : Nat → Nat) :
    loadBalance me limit now pick [] [] = .ok [none] ∧
    loadBalance me limit now pick [] [] ≠ .ok [] := by
  have h : loadBalance me limit now pick [] [] = .ok [none] := by
    rw [loadBalance_bootstrap
      (show removeInactivePartitionOwnerships now limit [] = [] from rfl)]
    simp [jsIndex]
  refine ⟨h, ?_⟩
  rw [h]
  simp

/-! ### Claim C4: stale entries behave like absent entries -/

/-- C4: a ledger entry whose record is stale
(`now - lastModifiedTime >= inactivityThreshold`) or malformed (missing
heartbeat, missing/empty owner) is treated identically to an absent
entry: `loadBalance` produces the same result, given the same random
draws, on the ledger with that entry removed. -/
theorem C4_stale_entry_like_absent (me : String) (limit now : Int)
    (pick : Nat → Nat) (l1 l2 : List (String × PartitionOwnership))
    (k : String) (po : PartitionOwnership) (cands : List String)
    (h : po.lastModifiedTimeInMS = none ∨ po.ownerId = "" ∨
      (∃ t, po.lastModifiedTimeInMS = some t ∧ limit ≤ now - t)) :
    loadBalance me limit now pick (l1 ++ (k, po) :: l2) cands =
      loadBalance me limit now pick (l1 ++ l2) cands := by
  have hact : isActiveOwnership now limit po = false := by
    rcases h with h | h | ⟨t, ht, hle⟩
    · simp [isActiveOwnership, h]
    · simp [isActiveOwnership, h]
    · simp [isActiveOwnership, ht, show ¬(now - t < limit) by omega]
  have hprune : removeInactivePartitionOwnerships now limit (l1 ++ (k, po) :: l2)
      = removeInactivePartitionOwnerships now limit (l1 ++ l2) := by
    simp [removeInactivePartitionOwnerships, List.filter_append, List.filter_cons, hact]
  simp only [loadBalance, hprune]

/-- C4 witness: a concrete stale entry (heartbeat 60 time units old with
threshold 10) is dropped. -/
theorem C4_witness :
    ((⟨"0", "x", some 40⟩ : PartitionOwnership).lastModifiedTimeInMS = none ∨
      (⟨"0", "x", some 40⟩ : PartitionOwnership).ownerId = "" ∨
      (∃ t, (⟨"0", "x", some 40⟩ : PartitionOwnership).lastModifiedTimeInMS = some t ∧
        (10 : Int) ≤ 100 - t)) ∧
    loadBalance "a" 10 100 (fun _ => 0) [("0", ⟨"0", "x", some 40⟩)] ["0", "1"] =
      loadBalance "a" 10 100 (fun _ => 0) [] ["0", "1"] :=
  ⟨Or.inr (Or.inr ⟨40, rfl, by decide⟩),
    C4_stale_entry_like_absent "a" 10 100 (fun _ => 0) [] [] "0" ⟨"0", "x", some 40⟩
      ["0", "1"] (Or.inr (Or.inr ⟨40, rfl, by decide⟩))⟩

/-! ### Claim C1: balanced view is a no-op -/

/-- Modelled from the spec (§4.2 step 5): the balanced predicate over an
owner view `m` with `P` candidate partitions and `C = m.length` owners —
every owner holds between `P / C` and `P / C + 1` partitions and exactly
`P % C` owners hold `P / C + 1`.  Stated separately from the source's
`isLoadBalanced` so the two can be compared. -/
def balancedView (P : Nat) (m : List (String × List PartitionOwnership)) : Prop :=
  (∀ e ∈ m, P / m.length ≤ e.2.length ∧ e.2.length ≤ P / m.length + 1) ∧
  m.countP (fun e => decide (e.2.length = P / m.length + 1)) = P % m.length

/-- The spec predicate coincides with the source's `_isLoadBalanced`. -/
theorem balancedView_iff_isLoadBalanced (P : Nat)
    (m : List (String × List PartitionOwnership)) :
    balancedView P m ↔
      isLoadBalanced (P / m.length) (P % m.length) 0 m = true := by
  rw [isLoadBalanced_iff]
  unfold balancedView
  constructor
  · rintro ⟨h1, h2⟩
    exact ⟨h1, by omega⟩
  · rintro ⟨h1, h2⟩
    exact ⟨h1, by omega⟩

/-- C1 counterexample: with an empty ledger and zero candidate
partitions, the active ownership view is empty, the owner view with the
caller registered satisfies the spec balanced predicate (one owner,
zero partitions each), yet `loadBalance` takes the bootstrap path and
returns a one-element list (containing `undefined`) instead of `[]`. -/
theorem C1_counterexample :
    balancedView (List.length ([] : List String))
      (ownerPartitionMapOf "a" (removeInactivePartitionOwnerships 1 1000 [])) ∧
    loadBalance "a" 1000 1 (fun _ => 0) [] [] ≠ .ok [] := by
  constructor
  · constructor
    · decide
    · decide
  · intro hc
    have h : loadBalance "a" 1000 1 (fun _ => 0) [] [] = .ok [none] := by
      rw [loadBalance_bootstrap
        (show removeInactivePartitionOwnerships 1 1000 [] = [] from rfl)]
      simp [jsIndex]
    rw [h] at hc
    simp at hc

/-- C1 (amended: the active ownership view must be non-empty, otherwise
the bootstrap path fires even when the degenerate `P = 0` view is
balanced): whenever the pruned active ownership view is non-empty and
the owner view with the caller registered satisfies the balanced
predicate for `(P, C)`, `loadBalance` returns the empty list, for every
caller, ledger and random draw. -/
theorem C1_balanced_view_no_op (me : String) (limit now : Int)
    (pick : Nat → Nat) (ledger : List (String × PartitionOwnership))
    (cands : List String)
    (hA : removeInactivePartitionOwnerships now limit ledger ≠ [])
    (hb : balancedView cands.length
      (ownerPartitionMapOf me (removeInactivePartitionOwnerships now limit ledger))) :
    loadBalance me limit now pick ledger cands = .ok [] :=
  loadBalance_balanced hA
    ((balancedView_iff_isLoadBalanced cands.length _).mp hb)

/-- C1 witness: two owners, two candidates, one partition each. -/
theorem C1_witness :
    removeInactivePartitionOwnerships 1 1000
        [("0", ⟨"0", "b", some 1⟩), ("1", ⟨"1", "a", some 1⟩)] ≠ [] ∧
    balancedView (List.length ["0", "1"])
      (ownerPartitionMapOf "a" (removeInactivePartitionOwnerships 1 1000
        [("0", ⟨"0", "b", some 1⟩), ("1", ⟨"1", "a", some 1⟩)])) ∧
    loadBalance "a" 1000 1 (fun _ => 0)
        [("0", ⟨"0", "b", some 1⟩), ("1", ⟨"1", "a", some 1⟩)] ["0", "1"] = .ok [] :=
  ⟨by decide, ⟨by decide, by decide⟩,
    C1_balanced_view_no_op "a" 1000 1 (fun _ => 0)
      [("0", ⟨"0", "b", some 1⟩), ("1", ⟨"1", "a", some 1⟩)] ["0", "1"]
      (by decide) ⟨by decide, by decide⟩⟩

/-! ### Claim C5: no over-claiming -/

/-- C5: in every non-bootstrap call (non-empty active ownership view)
in which the calling instance actively holds at least
`minPerOwner + 1 = P / C + 1` partitions, `loadBalance` returns the
empty list — it neither claims nor steals at or above fair share. -/
theorem C5_no_over_claiming (me : String) (limit now : Int) (pick : Nat → Nat)
    (ledger : List (String × PartitionOwnership)) (cands : List String)
    (hA : removeInactivePartitionOwnerships now limit ledger ≠ [])
    (hown : cands.length /
        (ownerPartitionMapOf me (removeInactivePartitionOwnerships now limit ledger)).length
        + 1 ≤
      (ownedBy me (removeInactivePartitionOwnerships now limit ledger)).length) :
    loadBalance me limit now pick ledger cands = .ok [] := by
  by_cases hb : isLoadBalanced
      (cands.length /
        (ownerPartitionMapOf me (removeInactivePartitionOwnerships now limit ledger)).length)
      (cands.length %
        (ownerPartitionMapOf me (removeInactivePartitionOwnerships now limit ledger)).length)
      0 (ownerPartitionMapOf me (removeInactivePartitionOwnerships now limit ledger)) = true
  · exact loadBalance_balanced hA hb
  · apply loadBalance_no_growth hA (by simpa using hb)
    rw [shouldOwnMorePartitions_eq (alGet_ownerPartitionMapOf_self me
      (removeInactivePartitionOwnerships now limit ledger))]
    have h1 : ¬((ownedBy me (removeInactivePartitionOwnerships now limit ledger)).length <
        cands.length /
          (ownerPartitionMapOf me (removeInactivePartitionOwnerships now limit ledger)).length) := by
      omega
    have h2 : ¬((ownedBy me (removeInactivePartitionOwnerships now limit ledger)).length <
        cands.length /
          (ownerPartitionMapOf me (removeInactivePartitionOwnerships now limit ledger)).length
          + 1) := by
      omega
    simp [h1, h2]

/-- C5 witness: the caller owns two of three candidates, another owner
owns the third, so the caller is at `minPerOwner + 1 = 2`. -/
theorem C5_witness :
    removeInactivePartitionOwnerships 1 1000
        [("0", ⟨"0", "a", some 1⟩), ("1", ⟨"1", "a", some 1⟩), ("2", ⟨"2", "b", some 1⟩)]
        ≠ [] ∧
    (List.length ["0", "1", "2"]) /
        (ownerPartitionMapOf "a" (removeInactivePartitionOwnerships 1 1000
          [("0", ⟨"0", "a", some 1⟩), ("1", ⟨"1", "a", some 1⟩), ("2", ⟨"2", "b", some 1⟩)])).length
        + 1 ≤
      (ownedBy "a" (removeInactivePartitionOwnerships 1 1000
        [("0", ⟨"0", "a", some 1⟩), ("1", ⟨"1", "a", some 1⟩), ("2", ⟨"2", "b", some 1⟩)])).length ∧
    loadBalance "a" 1000 1 (fun _ => 0)
        [("0", ⟨"0", "a", some 1⟩), ("1", ⟨"1", "a", some 1⟩), ("2", ⟨"2", "b", some 1⟩)]
        ["0", "1", "2"] = .ok [] :=
  ⟨by decide, by decide,
    C5_no_over_claiming "a" 1000 1 (fun _ => 0)
      [("0", ⟨"0", "a", some 1⟩), ("1", ⟨"1", "a", some 1⟩), ("2", ⟨"2", "b", some 1⟩)]
      ["0", "1", "2"] (by decide) (by decide)⟩

/-! ### Claim C7: self-registration and stealing from the sole owner -/

theorem foldl_groupStep_uniform (X : String) :
    ∀ (a : List (String × PartitionOwnership)) (l : List PartitionOwnership),
      (∀ e ∈ a, e.2.ownerId = X) →
      a.foldl groupStep [(X, l)] = [(X, l ++ a.map Prod.snd)] := by
  intro a
  induction a with
  | nil => intro l _; simp
  | cons e a ih =>
    intro l hall
    rw [List.foldl_cons]
    have hX : e.2.ownerId = X := hall e (List.mem_cons_self e a)
    have hstep : groupStep [(X, l)] e = [(X, l ++ [e.2])] := by
      simp [groupStep, hX, alGet, alSet]
    rw [hstep, ih (l ++ [e.2]) (fun e2 h2 => hall e2 (List.mem_cons_of_mem e h2))]
    simp

theorem buildOwnerPartitionMap_uniform (X : String)
    (e0 : String × PartitionOwnership) (a : List (String × PartitionOwnership))
    (hall : ∀ e ∈ e0 :: a, e.2.ownerId = X) :
    buildOwnerPartitionMap (e0 :: a) = [(X, (e0 :: a).map Prod.snd)] := by
  rw [buildOwnerPartitionMap, List.foldl_cons]
  have hX : e0.2.ownerId = X := hall e0 (List.mem_cons_self e0 a)
  have h0 : groupStep [] e0 = [(X, [e0.2])] := by
    simp [groupStep, hX, alGet, alSet]
  rw [h0, foldl_groupStep_uniform X a [e0.2]
    (fun e2 h2 => hall e2 (List.mem_cons_of_mem e0 h2))]
  simp


/-- In-range JavaScript indexing yields an element of the list. -/
theorem jsIndex_lt {α : Type} :
    ∀ (l : List α) (i : Nat), i < l.length →
      ∃ x, jsIndex l i = some x ∧ x ∈ l := by
  intro l
  induction l with
  | nil => intro i h; simp at h
  | cons a t ih =>
    intro i h
    cases i with
    | zero => exact ⟨a, by simp [jsIndex], List.mem_cons_self a t⟩
    | succ n =>
      obtain ⟨x, hx, hm⟩ := ih n (by simp at h; omega)
      refine ⟨x, ?_, List.mem_cons_of_mem a hm⟩
      simp only [jsIndex] at hx ⊢
      simpa using hx

/-- C7: when the active ownership view is non-empty but contains nothing
owned by the caller, the caller still counts as one of the `C` owners
(here `C = 2`), and when a single other owner `X` actively owns all
`P ≥ 2` candidate partitions the caller's call returns a singleton
steal claim rather than the empty list. -/
theorem C7_self_counted_and_steals (me X : String) (limit now t : Int)
    (pick : Nat → Nat) (cands : List String)
    (hpick : ∀ n, 0 < n → pick n < n)
    (hXme : X ≠ me) (hX : X ≠ "") (ht : t ≠ 0) (hfresh : now - t < limit)
    (hP : 2 ≤ cands.length) :
    (ownerPartitionMapOf me (removeInactivePartitionOwnerships now limit
        (cands.map (fun c => (c, ⟨c, X, some t⟩))))).length = 2 ∧
    ∃ pid ∈ cands,
      loadBalance me limit now pick
        (cands.map (fun c => (c, ⟨c, X, some t⟩))) cands = .ok [some pid] := by
  have hActive : ∀ e ∈ cands.map (fun c => ((c, ⟨c, X, some t⟩) : String × PartitionOwnership)),
      isActiveOwnership now limit e.2 = true := by
    intro e he
    obtain ⟨c, -, rfl⟩ := List.mem_map.mp he
    simp [isActiveOwnership, ht, hfresh, hX]
  have hA : removeInactivePartitionOwnerships now limit
      (cands.map (fun c => (c, ⟨c, X, some t⟩)))
      = cands.map (fun c => (c, ⟨c, X, some t⟩)) :=
    List.filter_eq_self.mpr hActive
  have hAll : ∀ e ∈ cands.map (fun c => ((c, ⟨c, X, some t⟩) : String × PartitionOwnership)),
      e.2.ownerId = X := by
    intro e he
    obtain ⟨c, -, rfl⟩ := List.mem_map.mp he
    rfl
  have hsnd : (cands.map (fun c => ((c, ⟨c, X, some t⟩) : String × PartitionOwnership))).map
      Prod.snd = cands.map (fun c => (⟨c, X, some t⟩ : PartitionOwnership)) := by
    rw [List.map_map]
    rfl
  obtain ⟨e0, a, he⟩ : ∃ e0 a,
      cands.map (fun c => ((c, ⟨c, X, some t⟩) : String × PartitionOwnership)) = e0 :: a := by
    cases hl : cands.map (fun c => ((c, ⟨c, X, some t⟩) : String × PartitionOwnership)) with
    | nil =>
      have hlen := congrArg List.length hl
      rw [List.length_map, List.length_nil] at hlen
      omega
    | cons x xs => exact ⟨x, xs, rfl⟩
  have hbuild : buildOwnerPartitionMap
      (cands.map (fun c => (c, ⟨c, X, some t⟩)))
      = [(X, cands.map (fun c => (⟨c, X, some t⟩ : PartitionOwnership)))] := by
    rw [he, buildOwnerPartitionMap_uniform X e0 a (by rw [← he]; exact hAll), ← he, hsnd]
  have hM : ownerPartitionMapOf me (removeInactivePartitionOwnerships now limit
      (cands.map (fun c => (c, ⟨c, X, some t⟩))))
      = [(X, cands.map (fun c => (⟨c, X, some t⟩ : PartitionOwnership))), (me, [])] := by
    rw [hA, ownerPartitionMapOf, hbuild]
    simp [registerSelf, alHas, alGet, alSet, hXme]
  have hClen : (ownerPartitionMapOf me (removeInactivePartitionOwnerships now limit
      (cands.map (fun c => (c, ⟨c, X, some t⟩))))).length = 2 := by
    rw [hM]
    rfl
  have hLlen : (cands.map (fun c => (⟨c, X, some t⟩ : PartitionOwnership))).length
      = cands.length := by simp
  refine ⟨hClen, ?_⟩
  have hb : isLoadBalanced
      (cands.length / (ownerPartitionMapOf me (removeInactivePartitionOwnerships now limit
        (cands.map (fun c => (c, ⟨c, X, some t⟩))))).length)
      (cands.length % (ownerPartitionMapOf me (removeInactivePartitionOwnerships now limit
        (cands.map (fun c => (c, ⟨c, X, some t⟩))))).length)
      0 (ownerPartitionMapOf me (removeInactivePartitionOwnerships now limit
        (cands.map (fun c => (c, ⟨c, X, some t⟩))))) = false := by
    rw [Bool.eq_false_iff]
    intro htrue
    obtain ⟨hall, -⟩ := (isLoadBalanced_iff _ _ _ _).mp htrue
    have hminst := hall (me, []) (by rw [hM]; simp)
    rw [hClen] at hminst
    simp only [List.length_nil] at hminst
    omega
  have hme : ownedBy me (removeInactivePartitionOwnerships now limit
      (cands.map (fun c => (c, ⟨c, X, some t⟩)))) = [] := by
    rw [hA]
    apply List.filter_eq_nil_iff.mpr
    intro po hpo
    rw [hsnd] at hpo
    obtain ⟨c, -, rfl⟩ := List.mem_map.mp hpo
    simp [hXme]
  have hs : shouldOwnMorePartitions me
      (cands.length / (ownerPartitionMapOf me (removeInactivePartitionOwnerships now limit
        (cands.map (fun c => (c, ⟨c, X, some t⟩))))).length)
      cands (ownerPartitionMapOf me (removeInactivePartitionOwnerships now limit
        (cands.map (fun c => (c, ⟨c, X, some t⟩))))) = .ok true := by
    rw [shouldOwnMorePartitions_eq (alGet_ownerPartitionMapOf_self me _), hme]
    simp only [List.length_nil, hClen]
    have hpos : (0 : Nat) < cands.length / 2 := by omega
    simp [hpos]
  have hu : cands.filter (fun partitionId =>
      !(alHas (removeInactivePartitionOwnerships now limit
        (cands.map (fun c => (c, ⟨c, X, some t⟩)))) partitionId)) = [] := by
    apply List.filter_eq_nil_iff.mpr
    intro c hc
    rw [hA]
    have hkeys : keysOf (cands.map
        (fun c => ((c, ⟨c, X, some t⟩) : String × PartitionOwnership))) = cands := by
      rw [keysOf, List.map_map]
      exact List.map_id cands
    have hhas : alHas (cands.map
        (fun c => ((c, ⟨c, X, some t⟩) : String × PartitionOwnership))) c = true := by
      rw [alHas_iff_mem_keysOf, hkeys]
      exact hc
    simp [hhas]
  rw [loadBalance_steal
    (by rw [hA]; intro hnil
        have hlen := congrArg List.length hnil
        rw [List.length_map, List.length_nil] at hlen
        omega)
    hb hs hu]
  have hmax : maxOwnedList (ownerPartitionMapOf me (removeInactivePartitionOwnerships now limit
      (cands.map (fun c => (c, ⟨c, X, some t⟩)))))
      = cands.map (fun c => (⟨c, X, some t⟩ : PartitionOwnership)) := by
    rw [hM]
    show (maxStep (maxStep ([], none) (X, _)) (me, [])).1 = _
    rw [maxStep_none]
    rw [if_pos (by rw [hLlen]; omega)]
    rw [maxStep_some]
    rw [if_neg (by simp)]
  obtain ⟨po, hpo, hmem⟩ := jsIndex_lt
    (cands.map (fun c => (⟨c, X, some t⟩ : PartitionOwnership)))
    (pick (cands.map (fun c => (⟨c, X, some t⟩ : PartitionOwnership))).length)
    (hpick _ (by rw [hLlen]; omega))
  have hsteal : findPartitionToSteal pick
      (ownerPartitionMapOf me (removeInactivePartitionOwnerships now limit
        (cands.map (fun c => (c, ⟨c, X, some t⟩)))))
      = .ok po.partitionId := by
    unfold findPartitionToSteal
    rw [hmax, hpo]
  rw [hsteal]
  obtain ⟨c, hc, rfl⟩ := List.mem_map.mp hmem
  exact ⟨c, hc, rfl⟩

/-- C7 witness: owner `"x"` holds both candidates, caller `"a"` holds
nothing and steals one. -/
theorem C7_witness :
    (ownerPartitionMapOf "a" (removeInactivePartitionOwnerships 1 1000
        (["0", "1"].map (fun c => (c, ⟨c, "x", some 1⟩))))).length = 2 ∧
    ∃ pid ∈ ["0", "1"],
      loadBalance "a" 1000 1 (fun n => n - 1)
        (["0", "1"].map (fun c => (c, ⟨c, "x", some 1⟩))) ["0", "1"] = .ok [some pid] :=
  C7_self_counted_and_steals "a" "x" 1000 1 1 (fun n => n - 1) ["0", "1"]
    (fun n h => by show n - 1 < n; omega)
    (by decide) (by decide) (by decide) (by decide) (by decide)

/-! ### Claims C2 and C9: result shape and absence of throws -/

theorem steal_branch_max_ne_nil {me : String} {limit now : Int}
    {ledger : List (String × PartitionOwnership)} {cands : List String}
    (hs : shouldOwnMorePartitions me
      (cands.length /
        (ownerPartitionMapOf me (removeInactivePartitionOwnerships now limit ledger)).length)
      cands (ownerPartitionMapOf me (removeInactivePartitionOwnerships now limit ledger)) =
      .ok true)
    (hu : cands.filter (fun partitionId =>
      !(alHas (removeInactivePartitionOwnerships now limit ledger) partitionId)) = []) :
    maxOwnedList (ownerPartitionMapOf me
      (removeInactivePartitionOwnerships now limit ledger)) ≠ [] := by
  have hcne : cands ≠ [] := by
    intro hc
    subst hc
    rw [shouldOwnMorePartitions_eq (alGet_ownerPartitionMapOf_self me
      (removeInactivePartitionOwnerships now limit ledger))] at hs
    simp at hs
  obtain ⟨c, hc⟩ : ∃ c, c ∈ cands := by
    cases cands with
    | nil => exact absurd rfl hcne
    | cons x xs => exact ⟨x, List.mem_cons_self x xs⟩
  have hhas : alHas (removeInactivePartitionOwnerships now limit ledger) c = true := by
    by_contra hn
    have hmemf : c ∈ cands.filter (fun partitionId =>
        !(alHas (removeInactivePartitionOwnerships now limit ledger) partitionId)) := by
      apply List.mem_filter.mpr
      refine ⟨hc, ?_⟩
      simp only [Bool.not_eq_true] at hn
      simp [hn]
    rw [hu] at hmemf
    simp at hmemf
  obtain ⟨po, hget⟩ : ∃ po,
      alGet (removeInactivePartitionOwnerships now limit ledger) c = some po :=
    Option.isSome_iff_exists.mp hhas
  have hmem : (c, po) ∈ removeInactivePartitionOwnerships now limit ledger :=
    mem_of_alGet_eq_some hget
  have hpo : po ∈ ownedBy po.ownerId (removeInactivePartitionOwnerships now limit ledger) :=
    mem_ownedBy.mpr ⟨List.mem_map.mpr ⟨(c, po), hmem, rfl⟩, rfl⟩
  have hone : ownedBy po.ownerId (removeInactivePartitionOwnerships now limit ledger) ≠ [] := by
    intro hnil
    rw [hnil] at hpo
    simp at hpo
  have hgetb : alGet (buildOwnerPartitionMap
      (removeInactivePartitionOwnerships now limit ledger)) po.ownerId =
      some (ownedBy po.ownerId (removeInactivePartitionOwnerships now limit ledger)) := by
    rw [alGet_buildOwnerPartitionMap, if_neg hone]
  exact maxOwnedList_ne_nil
    ⟨(po.ownerId, ownedBy po.ownerId (removeInactivePartitionOwnerships now limit ledger)),
      mem_registerSelf_of_mem me (mem_of_alGet_eq_some hgetb), hone⟩

theorem loadBalance_ok_shape {me : String} {limit now : Int} {pick : Nat → Nat}
    {ledger : List (String × PartitionOwnership)} {cands : List String}
    (hpick : ∀ n, 0 < n → pick n < n) :
    ∃ r, loadBalance me limit now pick ledger cands = .ok r ∧ r.length ≤ 1 ∧
      (removeInactivePartitionOwnerships now limit ledger = [] → r.length = 1) := by
  by_cases hA : removeInactivePartitionOwnerships now limit ledger = []
  · exact ⟨[jsIndex cands (pick cands.length)], loadBalance_bootstrap hA,
      by simp, fun _ => by simp⟩
  · by_cases hb : isLoadBalanced
        (cands.length /
          (ownerPartitionMapOf me (removeInactivePartitionOwnerships now limit ledger)).length)
        (cands.length %
          (ownerPartitionMapOf me (removeInactivePartitionOwnerships now limit ledger)).length)
        0 (ownerPartitionMapOf me (removeInactivePartitionOwnerships now limit ledger)) = true
    · exact ⟨[], loadBalance_balanced hA hb, by simp, fun h => absurd h hA⟩
    · have hb2 : isLoadBalanced
          (cands.length /
            (ownerPartitionMapOf me (removeInactivePartitionOwnerships now limit ledger)).length)
          (cands.length %
            (ownerPartitionMapOf me (removeInactivePartitionOwnerships now limit ledger)).length)
          0 (ownerPartitionMapOf me (removeInactivePartitionOwnerships now limit ledger))
          = false := by
        simpa using hb
      cases hres : shouldOwnMorePartitions me
          (cands.length /
            (ownerPartitionMapOf me (removeInactivePartitionOwnerships now limit ledger)).length)
          cands (ownerPartitionMapOf me (removeInactivePartitionOwnerships now limit ledger)) with
      | error err =>
        rw [shouldOwnMorePartitions_eq (alGet_ownerPartitionMapOf_self me
          (removeInactivePartitionOwnerships now limit ledger))] at hres
        exact absurd hres (by simp)
      | ok b =>
        cases b with
        | false => exact ⟨[], loadBalance_no_growth hA hb2 hres, by simp,
            fun h => absurd h hA⟩
        | true =>
          by_cases hu : cands.filter (fun partitionId =>
              !(alHas (removeInactivePartitionOwnerships now limit ledger) partitionId)) = []
          · have hmax := steal_branch_max_ne_nil hres hu
            have hlen : 0 < (maxOwnedList (ownerPartitionMapOf me
                (removeInactivePartitionOwnerships now limit ledger))).length := by
              cases hml : maxOwnedList (ownerPartitionMapOf me
                  (removeInactivePartitionOwnerships now limit ledger)) with
              | nil => exact absurd hml hmax
              | cons x xs => simp
            obtain ⟨po, hjs, -⟩ := jsIndex_lt _ _ (hpick _ hlen)
            have hsteal : findPartitionToSteal pick (ownerPartitionMapOf me
                (removeInactivePartitionOwnerships now limit ledger)) = .ok po.partitionId := by
              unfold findPartitionToSteal
              rw [hjs]
            refine ⟨[some po.partitionId], ?_, by simp, fun h => absurd h hA⟩
            rw [loadBalance_steal hA hb2 hres hu, hsteal]
          · exact ⟨[jsIndex (cands.filter (fun partitionId =>
                !(alHas (removeInactivePartitionOwnerships now limit ledger) partitionId)))
                (pick (cands.filter (fun partitionId =>
                  !(alHas (removeInactivePartitionOwnerships now limit ledger) partitionId))).length)],
              loadBalance_unowned hA hb2 hres hu, by simp, fun h => absurd h hA⟩

/-- C2: `loadBalance` always returns (never errors) a list of at most
one element, and in the bootstrap case (empty active ownership view)
exactly one element, for every ledger, candidate list, time and
in-range random draw function. -/
theorem C2_single_claim_per_round (me : String) (limit now : Int)
    (pick : Nat → Nat) (ledger : List (String × PartitionOwnership))
    (cands : List String) (hpick : ∀ n, 0 < n → pick n < n) :
    ∃ r, loadBalance me limit now pick ledger cands = .ok r ∧ r.length ≤ 1 ∧
      (removeInactivePartitionOwnerships now limit ledger = [] → r.length = 1) :=
  loadBalance_ok_shape hpick

/-- C2 witness: a concrete bootstrap call returns exactly one element. -/
theorem C2_witness :
    (∀ n, 0 < n → (fun (_ : Nat) => 0) n < n) ∧
    ∃ r, loadBalance "a" 1000 1 (fun _ => 0) [] ["0"] = .ok r ∧ r.length ≤ 1 ∧
      (removeInactivePartitionOwnerships 1 1000
        ([] : List (String × PartitionOwnership)) = [] → r.length = 1) :=
  ⟨fun n h => h, C2_single_claim_per_round "a" 1000 1 (fun _ => 0) [] ["0"]
    (fun n h => h)⟩

/-- C9: `loadBalance` never throws: for every ledger, candidate list,
time and in-range random draw function the result is `Except.ok` — in
particular the steal path always indexes a non-empty list and the
malformed-record paths only prune entries. -/
theorem C9_never_throws (me : String) (limit now : Int) (pick : Nat → Nat)
    (ledger : List (String × PartitionOwnership)) (cands : List String)
    (hpick : ∀ n, 0 < n → pick n < n) :
    ∃ r, loadBalance me limit now pick ledger cands = .ok r := by
  obtain ⟨r, hr, -, -⟩ := loadBalance_ok_shape hpick
  exact ⟨r, hr⟩

/-- C9 witness: a concrete steal-path call (one owner holding both
candidates, a malformed record pruned) returns `ok`. -/
theorem C9_witness :
    (∀ n, 0 < n → (fun (_ : Nat) => 0) n < n) ∧
    ∃ r, loadBalance "a" 1000 1 (fun _ => 0)
      [("0", ⟨"0", "x", some 1⟩), ("1", ⟨"1", "x", some 1⟩), ("2", ⟨"2", "", none⟩)]
      ["0", "1"] = .ok r :=
  ⟨fun n h => h, C9_never_throws "a" 1000 1 (fun _ => 0)
    [("0", ⟨"0", "x", some 1⟩), ("1", ⟨"1", "x", some 1⟩), ("2", ⟨"2", "", none⟩)]
    ["0", "1"] (fun n h => h)⟩

/-! ### Claim C10: the steal branch targets another owner -/

theorem nodup_subset_length_le {l1 l2 : List String} (h1 : l1.Nodup)
    (hs : l1 ⊆ l2) : l1.length ≤ l2.length := by
  calc l1.length = l1.toFinset.card := (List.toFinset_card_of_nodup h1).symm
    _ ≤ l2.toFinset.card := Finset.card_le_card (fun x hx => by
        simp only [List.mem_toFinset] at hx ⊢
        exact hs hx)
    _ ≤ l2.length := l2.toFinset_card_le

/-- C10: whenever `loadBalance` reaches the steal branch (non-empty
active view, unbalanced, caller should own more, every candidate
actively owned), the returned singleton is a partition actively owned
by an owner different from the caller, and in that branch the caller's
active count is strictly below `floor(P / C)`. -/
theorem C10_steals_only_from_others (me : String) (limit now : Int)
    (pick : Nat → Nat) (ledger : List (String × PartitionOwnership))
    (cands : List String)
    (hpick : ∀ n, 0 < n → pick n < n)
    (hwf : ∀ e ∈ ledger, e.2.partitionId = e.1)
    (hknd : (keysOf ledger).Nodup)
    (hcnd : cands.Nodup)
    (hA : removeInactivePartitionOwnerships now limit ledger ≠ [])
    (hb : isLoadBalanced
      (cands.length /
        (ownerPartitionMapOf me (removeInactivePartitionOwnerships now limit ledger)).length)
      (cands.length %
        (ownerPartitionMapOf me (removeInactivePartitionOwnerships now limit ledger)).length)
      0 (ownerPartitionMapOf me (removeInactivePartitionOwnerships now limit ledger)) = false)
    (hs : shouldOwnMorePartitions me
      (cands.length /
        (ownerPartitionMapOf me (removeInactivePartitionOwnerships now limit ledger)).length)
      cands (ownerPartitionMapOf me (removeInactivePartitionOwnerships now limit ledger)) =
      .ok true)
    (hu : cands.filter (fun partitionId =>
      !(alHas (removeInactivePartitionOwnerships now limit ledger) partitionId)) = []) :
    ∃ pid po, loadBalance me limit now pick ledger cands = .ok [some pid] ∧
      (pid, po) ∈ removeInactivePartitionOwnerships now limit ledger ∧
      po.ownerId ≠ me ∧ po.partitionId = pid ∧
      (ownedBy me (removeInactivePartitionOwnerships now limit ledger)).length <
        cands.length /
          (ownerPartitionMapOf me (removeInactivePartitionOwnerships now limit ledger)).length := by
  have hsub : List.Sublist (removeInactivePartitionOwnerships now limit ledger) ledger :=
    List.filter_sublist ledger
  have hkeysA : (keysOf (removeInactivePartitionOwnerships now limit ledger)).Nodup :=
    List.Nodup.sublist (List.Sublist.map Prod.fst hsub) hknd
  have hcsub : cands ⊆ keysOf (removeInactivePartitionOwnerships now limit ledger) := by
    intro c hc
    have hfa0 := List.filter_eq_nil_iff.mp hu c hc
    have hfa : alHas (removeInactivePartitionOwnerships now limit ledger) c = true := by
      simpa using hfa0
    exact (alHas_iff_mem_keysOf _ c).mp hfa
  have hPA : cands.length ≤ (removeInactivePartitionOwnerships now limit ledger).length := by
    have := nodup_subset_length_le hcnd hcsub
    rw [keysOf, List.length_map] at this
    exact this
  have hsum : sumOwnedLengths (ownerPartitionMapOf me
      (removeInactivePartitionOwnerships now limit ledger)) =
      (removeInactivePartitionOwnerships now limit ledger).length :=
    sumOwnedLengths_ownerPartitionMapOf me _
  have hown : (ownedBy me (removeInactivePartitionOwnerships now limit ledger)).length <
      cands.length /
        (ownerPartitionMapOf me (removeInactivePartitionOwnerships now limit ledger)).length := by
    rw [shouldOwnMorePartitions_eq (alGet_ownerPartitionMapOf_self me
      (removeInactivePartitionOwnerships now limit ledger))] at hs
    have hnot : ¬(sumOwnedLengths (ownerPartitionMapOf me
        (removeInactivePartitionOwnerships now limit ledger)) < cands.length) := by
      omega
    simp [hnot] at hs
    exact hs
  have hP1 : 1 ≤ cands.length := by
    by_contra hc
    have : cands.length = 0 := by omega
    rw [this] at hown
    simp at hown
  have hmaxcase := maxOwnedList_cases (ownerPartitionMapOf me
    (removeInactivePartitionOwnerships now limit ledger))
  have hClen : 0 < (ownerPartitionMapOf me
      (removeInactivePartitionOwnerships now limit ledger)).length :=
    length_ownerPartitionMapOf_pos me _
  rcases hmaxcase with hnil | ⟨eMax, hmem, hmax⟩
  · exfalso
    have hall0 : ∀ e ∈ ownerPartitionMapOf me
        (removeInactivePartitionOwnerships now limit ledger), e.2.length ≤ 0 := by
      intro e he
      have := le_maxOwnedList e he
      rw [hnil] at this
      simpa using this
    have := sumOwnedLengths_le _ hall0
    omega
  · have hmaxlen : ∀ e ∈ ownerPartitionMapOf me
        (removeInactivePartitionOwnerships now limit ledger),
        e.2.length ≤ eMax.2.length := by
      intro e he
      have := le_maxOwnedList e he
      rw [hmax] at this
      exact this
    have hsumle := sumOwnedLengths_le _ hmaxlen
    have hmaxpos : 1 ≤ eMax.2.length := by
      by_contra hc
      have h0 : eMax.2.length = 0 := by omega
      rw [h0, Nat.mul_zero] at hsumle
      omega
    have hne : eMax.1 ≠ me := by
      intro heq
      have hget : alGet (ownerPartitionMapOf me
          (removeInactivePartitionOwnerships now limit ledger)) me = some eMax.2 := by
        apply alGet_eq_some_of_mem (nodup_keysOf_ownerPartitionMapOf me _)
        have hpair : eMax = (me, eMax.2) := by
          rw [← heq]
        exact hpair ▸ hmem
      rw [alGet_ownerPartitionMapOf_self] at hget
      have heq2 : ownedBy me (removeInactivePartitionOwnerships now limit ledger) = eMax.2 := by
        injection hget
      have hlt : eMax.2.length < cands.length /
          (ownerPartitionMapOf me (removeInactivePartitionOwnerships now limit ledger)).length := by
        rw [← heq2]
        exact hown
      have hmul2 : (ownerPartitionMapOf me
          (removeInactivePartitionOwnerships now limit ledger)).length * (eMax.2.length + 1) ≤
          (ownerPartitionMapOf me
            (removeInactivePartitionOwnerships now limit ledger)).length *
          (cands.length /
            (ownerPartitionMapOf me
              (removeInactivePartitionOwnerships now limit ledger)).length) :=
        Nat.mul_le_mul_left _ hlt
      have hmul3 : (ownerPartitionMapOf me
          (removeInactivePartitionOwnerships now limit ledger)).length *
          (cands.length /
            (ownerPartitionMapOf me
              (removeInactivePartitionOwnerships now limit ledger)).length) ≤ cands.length := by
        rw [Nat.mul_comm]
        exact Nat.div_mul_le_self cands.length _
      rw [Nat.mul_succ] at hmul2
      omega
    have hentry : eMax.2 = ownedBy eMax.1 (removeInactivePartitionOwnerships now limit ledger) :=
      entry_ownerPartitionMapOf hmem
    have hlenpos : 0 < (maxOwnedList (ownerPartitionMapOf me
        (removeInactivePartitionOwnerships now limit ledger))).length := by
      rw [hmax]
      omega
    obtain ⟨po, hjs, hpomem⟩ := jsIndex_lt
      (maxOwnedList (ownerPartitionMapOf me
        (removeInactivePartitionOwnerships now limit ledger)))
      (pick (maxOwnedList (ownerPartitionMapOf me
        (removeInactivePartitionOwnerships now limit ledger))).length)
      (hpick _ hlenpos)
    rw [hmax, hentry] at hjs hpomem
    obtain ⟨hpoA, hpoowner⟩ := mem_ownedBy.mp hpomem
    obtain ⟨eA, heA, heq⟩ := List.mem_map.mp hpoA
    have hpid : po.partitionId = eA.1 := by
      rw [← heq]
      exact hwf eA (hsub.subset heA)
    have hsteal : findPartitionToSteal pick (ownerPartitionMapOf me
        (removeInactivePartitionOwnerships now limit ledger)) = .ok po.partitionId := by
      unfold findPartitionToSteal
      rw [hmax, hentry]
      rw [hjs]
    refine ⟨po.partitionId, po, ?_, ?_, ?_, rfl, hown⟩
    · rw [loadBalance_steal hA hb hs hu, hsteal]
    · rw [hpid]
      have : eA = (eA.1, po) := by
        rw [← heq]
      rw [← this]
      exact heA
    · rw [hpoowner]
      exact hne

/-- C10 witness: owner `"b"` actively holds both candidates; caller
`"a"` steals a partition belonging to `"b"`. -/
theorem C10_witness :
    ∃ pid po, loadBalance "a" 1000 1 (fun _ => 0)
        [("0", ⟨"0", "b", some 1⟩), ("1", ⟨"1", "b", some 1⟩)] ["0", "1"] =
        .ok [some pid] ∧
      (pid, po) ∈ removeInactivePartitionOwnerships 1 1000
        [("0", ⟨"0", "b", some 1⟩), ("1", ⟨"1", "b", some 1⟩)] ∧
      po.ownerId ≠ "a" ∧ po.partitionId = pid ∧
      (ownedBy "a" (removeInactivePartitionOwnerships 1 1000
        [("0", ⟨"0", "b", some 1⟩), ("1", ⟨"1", "b", some 1⟩)])).length <
        (List.length ["0", "1"]) /
          (ownerPartitionMapOf "a" (removeInactivePartitionOwnerships 1 1000
            [("0", ⟨"0", "b", some 1⟩), ("1", ⟨"1", "b", some 1⟩)])).length :=
  C10_steals_only_from_others "a" 1000 1 (fun _ => 0)
    [("0", ⟨"0", "b", some 1⟩), ("1", ⟨"1", "b", some 1⟩)] ["0", "1"]
    (fun n h => h) (by decide) (by decide) (by decide) (by decide) (by decide)
    (by rfl) (by decide)

/-! ### Claim C3: round-robin simulation machinery -/

/-- The caller loop of the spec (§6) applied to one round: persist the
returned claim (fresh heartbeat at time `now`) into the ledger; an
empty (or degenerate) result changes nothing. -/
def persistClaim (owner : String) (now : Int)
    (res : Except Unit (List (Option String)))
    (ledger : List (String × PartitionOwnership)) :
    List (String × PartitionOwnership) :=
  match res with
  | .ok [some pid] => alSet ledger pid ⟨pid, owner, some now⟩
  | _ => ledger

/-- Sequential round-robin simulation from the empty ledger: in round
`r` instance `ids (r % C)` calls `loadBalance` with draw function
`picks r` and immediately persists any returned claim.  Time is frozen
at `1` with inactivity limit `limit`, so heartbeats stay fresh. -/
def simLedger (C : Nat) (ids : Nat → String) (limit : Int)
    (picks : Nat → Nat → Nat) (cands : List String) :
    Nat → List (String × PartitionOwnership)
  | 0 => []
  | r + 1 =>
    persistClaim (ids (r % C)) 1
      (loadBalance (ids (r % C)) limit 1 (picks r)
        (simLedger C ids limit picks cands r) cands)
      (simLedger C ids limit picks cands r)

/-- Number of rounds among `0, …, r-1` assigned to instance `j` by the
round-robin schedule. -/
def cntRounds (C j r : Nat) : Nat :=
  (List.range r).countP (fun t2 => t2 % C == j)

theorem succ_div_of_mod_succ_eq (C r : Nat) (hC : 0 < C) (h : r % C + 1 = C) :
    (r + 1) / C = r / C + 1 ∧ (r + 1) % C = 0 := by
  have h0 : C * (r / C) + r % C = r := Nat.div_add_mod r C
  have h1 : r + 1 = C * (r / C + 1) := by
    rw [Nat.mul_succ]
    omega
  constructor
  · rw [h1, Nat.mul_div_cancel_left _ hC]
  · rw [h1, Nat.mul_mod_right]

theorem succ_div_of_mod_succ_lt (C r : Nat) (hC : 0 < C) (h : r % C + 1 < C) :
    (r + 1) / C = r / C ∧ (r + 1) % C = r % C + 1 := by
  have h0 : C * (r / C) + r % C = r := Nat.div_add_mod r C
  have h1 : r + 1 = C * (r / C) + (r % C + 1) := by omega
  constructor
  · rw [h1, Nat.mul_add_div hC, Nat.div_eq_of_lt h, Nat.add_zero]
  · rw [h1, Nat.mul_add_mod, Nat.mod_eq_of_lt h]

theorem cntRounds_succ (C j r : Nat) :
    cntRounds C j (r + 1) = cntRounds C j r + (if r % C = j then 1 else 0) := by
  rw [cntRounds, cntRounds, List.range_succ, List.countP_append]
  simp [List.countP_cons]

theorem cntRounds_closed (C : Nat) (hC : 0 < C) (j : Nat) (hj : j < C) :
    ∀ r, cntRounds C j r = r / C + (if j < r % C then 1 else 0) := by
  intro r
  induction r with
  | zero => simp [cntRounds]
  | succ r ih =>
    rw [cntRounds_succ, ih]
    have hmod : r % C < C := Nat.mod_lt r hC
    by_cases hcase : r % C + 1 = C
    · obtain ⟨hd, hm⟩ := succ_div_of_mod_succ_eq C r hC hcase
      rw [hd, hm]
      split_ifs <;> omega
    · obtain ⟨hd, hm⟩ := succ_div_of_mod_succ_lt C r hC (by omega)
      rw [hd, hm]
      split_ifs <;> omega

theorem cntRounds_pos_iff (C : Nat) (hC : 0 < C) (j : Nat) (hj : j < C)
    (r : Nat) : 1 ≤ cntRounds C j r ↔ j < min r C := by
  rw [cntRounds_closed C hC j hj r]
  by_cases hr : r < C
  · rw [Nat.div_eq_of_lt hr, Nat.mod_eq_of_lt hr]
    split_ifs <;> omega
  · have h2 : 1 ≤ r / C := (Nat.one_le_div_iff hC).mpr (by omega)
    have h3 : min r C = C := by omega
    rw [h3]
    split_ifs <;> omega

theorem cntRounds_sum (C : Nat) (hC : 0 < C) (r : Nat) :
    ∀ j, j < C → cntRounds C j r ≤ r := by
  intro j hj
  rw [cntRounds]
  calc (List.range r).countP (fun t2 => t2 % C == j) ≤ (List.range r).length :=
        List.countP_le_length _
    _ = r := List.length_range r

theorem countP_range_lt (s : Nat) : ∀ (n : Nat),
    (List.range n).countP (fun i => decide (i < s)) = min s n := by
  intro n
  induction n with
  | zero => simp
  | succ n ih =>
    rw [List.range_succ, List.countP_append, ih]
    by_cases h : n < s <;> simp [h] <;> omega


theorem ownedBy_append (o : String) (a b : List (String × PartitionOwnership)) :
    ownedBy o (a ++ b) = ownedBy o a ++ ownedBy o b := by
  simp [ownedBy, List.filter_append]

/-- Invariant of the round-robin simulation after `r` rounds: the
ledger holds `r` distinct candidate partitions, every record is
well-formed with a fresh heartbeat and an owner among the `C`
instances, and instance `j` owns exactly the number of rounds it has
been scheduled for. -/
def simInv (C : Nat) (ids : Nat → String) (cands : List String)
    (r : Nat) (L : List (String × PartitionOwnership)) : Prop :=
  (keysOf L).Nodup ∧ keysOf L ⊆ cands ∧ L.length = r ∧
  (∀ e ∈ L, e.2.partitionId = e.1 ∧ e.2.lastModifiedTimeInMS = some 1 ∧
    ∃ j, j < C ∧ e.2.ownerId = ids j) ∧
  (∀ j, j < C → (ownedBy (ids j) L).length = cntRounds C j r)

theorem map_eq_self_of {α : Type} {l : List α} {f : α → α}
    (h : ∀ x ∈ l, f x = x) : l.map f = l := by
  induction l with
  | nil => rfl
  | cons a t ih =>
    rw [List.map_cons, h a (List.mem_cons_self a t),
      ih (fun x hx => h x (List.mem_cons_of_mem a hx))]

theorem simInv_active {C : Nat} {ids : Nat → String} {cands : List String}
    {r : Nat} {L : List (String × PartitionOwnership)}
    (hInv : simInv C ids cands r L)
    (hne : ∀ j, j < C → ids j ≠ "") {limit : Int} (hlimit : 0 < limit) :
    removeInactivePartitionOwnerships 1 limit L = L := by
  apply List.filter_eq_self.mpr
  intro e he
  obtain ⟨-, hlm, j, hj, hown⟩ := hInv.2.2.2.1 e he
  simp [isActiveOwnership, hlm, hown, hne j hj, hlimit]

theorem simInv_ownedBy_iff {C : Nat} (hC : 0 < C) {ids : Nat → String}
    {cands : List String} {r : Nat} {L : List (String × PartitionOwnership)}
    (hInv : simInv C ids cands r L) (k : String) :
    ownedBy k L ≠ [] ↔ ∃ i, i < min r C ∧ k = ids i := by
  constructor
  · intro h
    obtain ⟨po, hpo⟩ : ∃ po, po ∈ ownedBy k L := by
      cases h2 : ownedBy k L with
      | nil => exact absurd h2 h
      | cons x xs => exact ⟨x, h2 ▸ List.mem_cons_self x xs⟩
    obtain ⟨hmap, howner⟩ := mem_ownedBy.mp hpo
    obtain ⟨e, he, heq⟩ := List.mem_map.mp hmap
    obtain ⟨-, -, j, hj, hj2⟩ := hInv.2.2.2.1 e he
    have hk : k = ids j := by rw [← howner, ← heq, hj2]
    refine ⟨j, ?_, hk⟩
    have hlen := hInv.2.2.2.2 j hj
    have hone : 1 ≤ (ownedBy (ids j) L).length := by
      have hne2 : ownedBy (ids j) L ≠ [] := hk ▸ h
      cases h3 : ownedBy (ids j) L with
      | nil => exact absurd h3 hne2
      | cons x xs => simp
    rw [hlen] at hone
    exact (cntRounds_pos_iff C hC j hj r).mp hone
  · rintro ⟨i, hi, rfl⟩
    have hiC : i < C := lt_of_lt_of_le hi (min_le_right r C)
    have hlen := hInv.2.2.2.2 i hiC
    have hone : 1 ≤ cntRounds C i r := (cntRounds_pos_iff C hC i hiC r).mpr hi
    rw [← hlen] at hone
    intro hnil
    rw [hnil] at hone
    simp at hone

/-- The canonical list of owner keys for the view of caller `ids j`
after `r` rounds. -/
def canonKeys (C : Nat) (ids : Nat → String) (r j : Nat) : List String :=
  if j < min r C then (List.range (min r C)).map ids
  else (List.range (min r C)).map ids ++ [ids j]

theorem canonKeys_nodup (C : Nat) (ids : Nat → String)
    (hinj : ∀ i j, i < C → j < C → ids i = ids j → i = j) (r j : Nat)
    (hj : j < C) : (canonKeys C ids r j).Nodup := by
  have hrange : ((List.range (min r C)).map ids).Nodup := by
    apply List.Nodup.map_on
    · intro x hx y hy hxy
      rw [List.mem_range] at hx hy
      exact hinj x y (lt_of_lt_of_le hx (min_le_right r C))
        (lt_of_lt_of_le hy (min_le_right r C)) hxy
    · exact List.nodup_range _
  unfold canonKeys
  by_cases hcase : j < min r C
  · rw [if_pos hcase]
    exact hrange
  · rw [if_neg hcase]
    rw [List.nodup_append]
    refine ⟨hrange, List.nodup_singleton _, ?_⟩
    intro x hx hx2
    simp at hx2
    obtain ⟨i, hi, hieq⟩ := List.mem_map.mp hx
    rw [List.mem_range] at hi
    rw [hx2] at hieq
    have := hinj i j (lt_of_lt_of_le hi (min_le_right r C)) hj hieq
    omega

theorem simInv_mem_canonKeys_iff {C : Nat} (hC : 0 < C) {ids : Nat → String}
    {cands : List String} {r : Nat} {L : List (String × PartitionOwnership)}
    (hInv : simInv C ids cands r L) (j : Nat) (hj : j < C) (k : String) :
    k ∈ canonKeys C ids r j ↔ (ownedBy k L ≠ [] ∨ k = ids j) := by
  rw [simInv_ownedBy_iff hC hInv k]
  unfold canonKeys
  by_cases hcase : j < min r C
  · rw [if_pos hcase]
    simp only [List.mem_map, List.mem_range]
    constructor
    · rintro ⟨i, hi, rfl⟩
      exact Or.inl ⟨i, hi, rfl⟩
    · rintro (⟨i, hi, rfl⟩ | rfl)
      · exact ⟨i, hi, rfl⟩
      · exact ⟨j, hcase, rfl⟩
  · rw [if_neg hcase]
    simp only [List.mem_append, List.mem_map, List.mem_range, List.mem_singleton]
    constructor
    · rintro (⟨i, hi, rfl⟩ | rfl)
      · exact Or.inl ⟨i, hi, rfl⟩
      · exact Or.inr rfl
    · rintro (⟨i, hi, rfl⟩ | rfl)
      · exact Or.inl ⟨i, hi, rfl⟩
      · exact Or.inr rfl

theorem simInv_keys_perm {C : Nat} (hC : 0 < C) {ids : Nat → String}
    (hinj : ∀ i j, i < C → j < C → ids i = ids j → i = j)
    {cands : List String} {r : Nat} {L : List (String × PartitionOwnership)}
    (hInv : simInv C ids cands r L) (j : Nat) (hj : j < C) :
    (keysOf (ownerPartitionMapOf (ids j) L)).Perm (canonKeys C ids r j) := by
  apply (List.perm_ext_iff_of_nodup
    (nodup_keysOf_ownerPartitionMapOf (ids j) L)
    (canonKeys_nodup C ids hinj r j hj)).mpr
  intro k
  rw [simInv_mem_canonKeys_iff hC hInv j hj k]
  rw [← alHas_iff_mem_keysOf]
  exact alHas_ownerPartitionMapOf (ids j) L k

theorem simInv_view_length {C : Nat} (hC : 0 < C) {ids : Nat → String}
    (hinj : ∀ i j, i < C → j < C → ids i = ids j → i = j)
    {cands : List String} {r : Nat} {L : List (String × PartitionOwnership)}
    (hInv : simInv C ids cands r L) (j : Nat) (hj : j < C) :
    (ownerPartitionMapOf (ids j) L).length =
      if j < min r C then min r C else min r C + 1 := by
  have hperm := (simInv_keys_perm hC hinj hInv j hj).length_eq
  rw [keysOf, List.length_map] at hperm
  rw [hperm]
  unfold canonKeys
  by_cases hcase : j < min r C
  · rw [if_pos hcase, if_pos hcase]
    simp
  · rw [if_neg hcase, if_neg hcase]
    simp

theorem simInv_entries_perm {C : Nat} (hC : 0 < C) {ids : Nat → String}
    (hinj : ∀ i j, i < C → j < C → ids i = ids j → i = j)
    {cands : List String} {r : Nat} {L : List (String × PartitionOwnership)}
    (hInv : simInv C ids cands r L) (j : Nat) (hj : j < C) :
    (ownerPartitionMapOf (ids j) L).Perm
      ((canonKeys C ids r j).map (fun k => (k, ownedBy k L))) := by
  have hMeq : ownerPartitionMapOf (ids j) L =
      (keysOf (ownerPartitionMapOf (ids j) L)).map (fun k => (k, ownedBy k L)) := by
    rw [keysOf, List.map_map]
    symm
    apply map_eq_self_of
    intro e he
    show (e.1, ownedBy e.1 L) = e
    rw [← entry_ownerPartitionMapOf he]
  rw [hMeq]
  exact (simInv_keys_perm hC hinj hInv j hj).map _

theorem simInv_zero (C : Nat) (ids : Nat → String) (cands : List String) :
    simInv C ids cands 0 [] := by
  refine ⟨by simp [keysOf], by simp [keysOf], rfl, by simp, ?_⟩
  intro j hj
  simp [ownedBy, cntRounds]

theorem simInv_extend {C : Nat} (hC : 0 < C) {ids : Nat → String}
    (hinj : ∀ i j, i < C → j < C → ids i = ids j → i = j)
    {cands : List String} {r : Nat} {L : List (String × PartitionOwnership)}
    (hInv : simInv C ids cands r L) {pid : String} (hpidc : pid ∈ cands)
    (hnew : alHas L pid = false) :
    simInv C ids cands (r + 1) (alSet L pid ⟨pid, ids (r % C), some 1⟩) := by
  rw [alSet_of_not_has hnew]
  have hj0 : r % C < C := Nat.mod_lt r hC
  refine ⟨?_, ?_, ?_, ?_, ?_⟩
  · rw [keysOf, List.map_append]
    rw [List.nodup_append]
    refine ⟨hInv.1, by simp, ?_⟩
    intro x hx hx2
    simp at hx2
    subst hx2
    exact (alHas_false_iff L x).mp hnew hx
  · rw [keysOf, List.map_append]
    intro x hx
    rcases List.mem_append.mp hx with h1 | h1
    · exact hInv.2.1 h1
    · simp at h1
      subst h1
      exact hpidc
  · rw [List.length_append, hInv.2.2.1]
    simp
  · intro e he
    rcases List.mem_append.mp he with h1 | h1
    · exact hInv.2.2.2.1 e h1
    · simp at h1
      subst h1
      exact ⟨rfl, rfl, r % C, hj0, rfl⟩
  · intro j hj
    rw [ownedBy_append, List.length_append, hInv.2.2.2.2 j hj, cntRounds_succ]
    congr 1
    rw [show ownedBy (ids j)
        [(pid, (⟨pid, ids (r % C), some 1⟩ : PartitionOwnership))] =
        if ids (r % C) = ids j then
          [(⟨pid, ids (r % C), some 1⟩ : PartitionOwnership)] else [] by
      rw [ownedBy_cons, ownedBy_nil]]
    by_cases hcase : r % C = j
    · rw [if_pos (by rw [hcase]), if_pos hcase]
      rfl
    · rw [if_neg (fun heq => hcase (hinj _ _ hj0 hj heq)), if_neg hcase]
      rfl

theorem simInv_round (C : Nat) (hC : 0 < C) (ids : Nat → String)
    (hinj : ∀ i j, i < C → j < C → ids i = ids j → i = j)
    (hne : ∀ j, j < C → ids j ≠ "")
    (cands : List String) (hcnd : cands.Nodup)
    (limit : Int) (hlimit : 0 < limit)
    (pick : Nat → Nat) (hpick : ∀ n, 0 < n → pick n < n)
    (r : Nat) (hr : r < cands.length)
    (L : List (String × PartitionOwnership)) (hInv : simInv C ids cands r L) :
    ∃ pid, pid ∈ cands ∧ alHas L pid = false ∧
      loadBalance (ids (r % C)) limit 1 pick L cands = .ok [some pid] ∧
      simInv C ids cands (r + 1) (alSet L pid ⟨pid, ids (r % C), some 1⟩) := by
  by_cases hr0 : r = 0
  · subst hr0
    have hL : L = [] := List.length_eq_zero.mp hInv.2.2.1
    subst hL
    obtain ⟨pid, hjs, hmem⟩ := jsIndex_lt cands (pick cands.length)
      (hpick _ (by omega))
    refine ⟨pid, hmem, rfl, ?_, simInv_extend hC hinj hInv hmem rfl⟩
    rw [loadBalance_bootstrap
      (show removeInactivePartitionOwnerships 1 limit [] = [] from rfl), hjs]
  · have hr1 : 1 ≤ r := by omega
    have hj0 : r % C < C := Nat.mod_lt r hC
    have hA : removeInactivePartitionOwnerships 1 limit L = L :=
      simInv_active hInv hne hlimit
    have hAne : removeInactivePartitionOwnerships 1 limit L ≠ [] := by
      rw [hA]
      intro hnil
      rw [hnil] at hInv
      have := hInv.2.2.1
      simp at this
      omega
    have hsum : sumOwnedLengths (ownerPartitionMapOf (ids (r % C))
        (removeInactivePartitionOwnerships 1 limit L)) = r := by
      rw [hA, sumOwnedLengths_ownerPartitionMapOf, hInv.2.2.1]
    have hb : isLoadBalanced
        (cands.length / (ownerPartitionMapOf (ids (r % C))
          (removeInactivePartitionOwnerships 1 limit L)).length)
        (cands.length % (ownerPartitionMapOf (ids (r % C))
          (removeInactivePartitionOwnerships 1 limit L)).length)
        0 (ownerPartitionMapOf (ids (r % C))
          (removeInactivePartitionOwnerships 1 limit L)) = false := by
      rw [Bool.eq_false_iff]
      intro htrue
      have hs2 := sumOwnedLengths_of_isLoadBalanced htrue
      rw [hsum] at hs2
      have hdm := Nat.div_add_mod cands.length
        ((ownerPartitionMapOf (ids (r % C))
          (removeInactivePartitionOwnerships 1 limit L)).length)
      rw [Nat.mul_comm] at hdm
      omega
    have hown : (ownedBy (ids (r % C)) L).length ≤
        cands.length / (ownerPartitionMapOf (ids (r % C))
          (removeInactivePartitionOwnerships 1 limit L)).length := by
      have hcnt0 : (ownedBy (ids (r % C)) L).length = cntRounds C (r % C) r :=
        hInv.2.2.2.2 (r % C) hj0
      by_cases hrC : r < C
      · have hcnt : cntRounds C (r % C) r = 0 := by
          rw [cntRounds_closed C hC (r % C) hj0 r, Nat.div_eq_of_lt hrC,
            if_neg (by omega)]
        rw [hcnt0, hcnt]
        exact Nat.zero_le _
      · have hcnt : cntRounds C (r % C) r = r / C := by
          rw [cntRounds_closed C hC (r % C) hj0 r, if_neg (by omega), Nat.add_zero]
        have hview2 : (ownerPartitionMapOf (ids (r % C))
            (removeInactivePartitionOwnerships 1 limit L)).length = C := by
          rw [hA, simInv_view_length hC hinj hInv (r % C) hj0,
            show min r C = C by omega, if_pos (by omega)]
        rw [hcnt0, hcnt, hview2]
        exact Nat.div_le_div_right (by omega)
    have hs : shouldOwnMorePartitions (ids (r % C))
        (cands.length / (ownerPartitionMapOf (ids (r % C))
          (removeInactivePartitionOwnerships 1 limit L)).length)
        cands (ownerPartitionMapOf (ids (r % C))
          (removeInactivePartitionOwnerships 1 limit L)) = .ok true := by
      rw [shouldOwnMorePartitions_eq (alGet_ownerPartitionMapOf_self (ids (r % C))
        (removeInactivePartitionOwnerships 1 limit L))]
      have h1 : sumOwnedLengths (ownerPartitionMapOf (ids (r % C))
          (removeInactivePartitionOwnerships 1 limit L)) < cands.length := by
        omega
      have h2 : (ownedBy (ids (r % C))
          (removeInactivePartitionOwnerships 1 limit L)).length <
          cands.length / (ownerPartitionMapOf (ids (r % C))
            (removeInactivePartitionOwnerships 1 limit L)).length + 1 := by
        have hown2 := hown
        rw [hA] at hown2
        rw [hA]
        omega
      simp [h1, h2]
    have hu : cands.filter (fun partitionId =>
        !(alHas (removeInactivePartitionOwnerships 1 limit L) partitionId)) ≠ [] := by
      intro hnil
      have hsubkeys : cands ⊆ keysOf L := by
        intro c hc
        have hfa0 := List.filter_eq_nil_iff.mp hnil c hc
        have hfa : alHas (removeInactivePartitionOwnerships 1 limit L) c = true := by
          simpa using hfa0
        rw [hA] at hfa
        exact (alHas_iff_mem_keysOf L c).mp hfa
      have := nodup_subset_length_le hcnd hsubkeys
      rw [keysOf, List.length_map, hInv.2.2.1] at this
      omega
    rw [loadBalance_unowned hAne hb hs hu]
    have hupos : 0 < (cands.filter (fun partitionId =>
        !(alHas (removeInactivePartitionOwnerships 1 limit L) partitionId))).length := by
      cases hfl : cands.filter (fun partitionId =>
          !(alHas (removeInactivePartitionOwnerships 1 limit L) partitionId)) with
      | nil => exact absurd hfl hu
      | cons x xs => simp
    obtain ⟨pid, hjs, hmem⟩ := jsIndex_lt _ _ (hpick _ hupos)
    have hmem2 := List.mem_filter.mp hmem
    have hpidc : pid ∈ cands := hmem2.1
    have hnew : alHas L pid = false := by
      have := hmem2.2
      rw [hA] at this
      simpa using this
    exact ⟨pid, hpidc, hnew, by rw [hjs], simInv_extend hC hinj hInv hpidc hnew⟩

theorem countP_map_eq_countP {α β : Type} (f : α → β) (p : β → Bool)
    (q : α → Bool) (l : List α) (h : ∀ x ∈ l, p (f x) = q x) :
    (l.map f).countP p = l.countP q := by
  induction l with
  | nil => rfl
  | cons a t ih =>
    rw [List.map_cons, List.countP_cons, List.countP_cons,
      ih (fun x hx => h x (List.mem_cons_of_mem a hx)),
      h a (List.mem_cons_self a t)]

theorem persistClaim_ok_some (owner : String) (now : Int) (pid : String)
    (ledger : List (String × PartitionOwnership)) :
    persistClaim owner now (.ok [some pid]) ledger =
      alSet ledger pid ⟨pid, owner, some now⟩ := rfl

theorem persistClaim_ok_nil (owner : String) (now : Int)
    (ledger : List (String × PartitionOwnership)) :
    persistClaim owner now (.ok []) ledger = ledger := rfl

theorem simInv_balanced (C : Nat) (hC : 0 < C) (ids : Nat → String)
    (hinj : ∀ i j, i < C → j < C → ids i = ids j → i = j)
    {cands : List String} (hP : 1 ≤ cands.length)
    {L : List (String × PartitionOwnership)}
    (hInv : simInv C ids cands cands.length L) (j : Nat) (hj : j < C) :
    isLoadBalanced
      (cands.length / (ownerPartitionMapOf (ids j) L).length)
      (cands.length % (ownerPartitionMapOf (ids j) L).length)
      0 (ownerPartitionMapOf (ids j) L) = true := by
  apply (isLoadBalanced_iff _ _ _ _).mpr
  have hcnt := hInv.2.2.2.2
  have hlenM := simInv_view_length hC hinj hInv j hj
  have hperm := simInv_entries_perm hC hinj hInv j hj
  have hkeysperm := simInv_keys_perm hC hinj hInv j hj
  have hmemdec : ∀ e ∈ ownerPartitionMapOf (ids j) L,
      (∃ i, i < min cands.length C ∧ e.1 = ids i) ∨
        (e.1 = ids j ∧ ownedBy (ids j) L = []) := by
    intro e he
    have hk : e.1 ∈ keysOf (ownerPartitionMapOf (ids j) L) :=
      List.mem_map.mpr ⟨e, he, rfl⟩
    have hk2 : e.1 ∈ canonKeys C ids cands.length j := hkeysperm.mem_iff.mp hk
    rw [simInv_mem_canonKeys_iff hC hInv j hj] at hk2
    rcases hk2 with hne2 | heq
    · exact Or.inl ((simInv_ownedBy_iff hC hInv e.1).mp hne2)
    · by_cases hj2 : ownedBy (ids j) L = []
      · exact Or.inr ⟨heq, hj2⟩
      · obtain ⟨i, hi, hh⟩ := (simInv_ownedBy_iff hC hInv (ids j)).mp hj2
        exact Or.inl ⟨i, hi, by rw [heq, hh]⟩
  by_cases hPC : C ≤ cands.length
  · -- at least as many partitions as instances: every instance present
    have hD : min cands.length C = C := by omega
    have hMC : (ownerPartitionMapOf (ids j) L).length = C := by
      rw [hlenM, hD, if_pos hj]
    have hcnteq : ∀ i, i < C → (ownedBy (ids i) L).length =
        cands.length / C + (if i < cands.length % C then 1 else 0) := by
      intro i hi
      rw [hcnt i hi, cntRounds_closed C hC i hi]
    rw [hMC]
    constructor
    · intro e he
      rw [entry_ownerPartitionMapOf he]
      rcases hmemdec e he with ⟨i, hi, hieq⟩ | ⟨hjeq, hempty⟩
      · rw [hieq, hcnteq i (by omega)]
        constructor <;> split_ifs <;> omega
      · exfalso
        have h1 := (cntRounds_pos_iff C hC j hj cands.length).mpr (by omega)
        rw [← hcnt j hj, hempty] at h1
        simp at h1
    · have hcp := hperm.countP_eq
        (fun e => decide (e.2.length = cands.length / C + 1))
      rw [Nat.zero_add, hcp]
      rw [show canonKeys C ids cands.length j = (List.range C).map ids by
        unfold canonKeys
        rw [hD, if_pos hj]]
      rw [countP_map_eq_countP (fun k => (k, ownedBy k L))
        (fun e => decide (e.2.length = cands.length / C + 1))
        (fun k => decide ((ownedBy k L).length = cands.length / C + 1))
        ((List.range C).map ids) (fun x _ => rfl)]
      rw [countP_map_eq_countP ids
        (fun k => decide ((ownedBy k L).length = cands.length / C + 1))
        (fun i => decide (i < cands.length % C))
        (List.range C)
        (by
          intro x hx
          rw [List.mem_range] at hx
          rw [decide_eq_decide, hcnteq x hx]
          split_ifs <;> omega)]
      rw [countP_range_lt]
      have := Nat.mod_lt cands.length hC
      omega
  · -- fewer partitions than instances
    have hD : min cands.length C = cands.length := by omega
    have hcnteq : ∀ i, i < cands.length → (ownedBy (ids i) L).length = 1 := by
      intro i hi
      rw [hcnt i (by omega), cntRounds_closed C hC i (by omega),
        Nat.div_eq_of_lt (by omega), Nat.mod_eq_of_lt (by omega), if_pos hi]
    by_cases hjP : j < cands.length
    · -- caller among the owners
      have hMC : (ownerPartitionMapOf (ids j) L).length = cands.length := by
        rw [hlenM, hD, if_pos hjP]
      rw [hMC, Nat.div_self (by omega), Nat.mod_self]
      constructor
      · intro e he
        rw [entry_ownerPartitionMapOf he]
        rcases hmemdec e he with ⟨i, hi, hieq⟩ | ⟨hjeq, hempty⟩
        · rw [hieq, hcnteq i (by omega)]
          omega
        · exfalso
          have h1 := (cntRounds_pos_iff C hC j hj cands.length).mpr (by omega)
          rw [← hcnt j hj, hempty] at h1
          simp at h1
      · rw [Nat.zero_add]
        apply List.countP_eq_zero.mpr
        intro e he
        rw [entry_ownerPartitionMapOf he]
        rcases hmemdec e he with ⟨i, hi, hieq⟩ | ⟨hjeq, hempty⟩
        · rw [hieq, hcnteq i (by omega)]
          simp
        · exfalso
          have h1 := (cntRounds_pos_iff C hC j hj cands.length).mpr (by omega)
          rw [← hcnt j hj, hempty] at h1
          simp at h1
    · -- caller not yet an owner: it is registered with an empty list
      have hMC : (ownerPartitionMapOf (ids j) L).length = cands.length + 1 := by
        rw [hlenM, hD, if_neg hjP]
      have hempty : ownedBy (ids j) L = [] := by
        have h1 : ¬ (1 ≤ cntRounds C j cands.length) := by
          rw [cntRounds_pos_iff C hC j hj cands.length]
          omega
        have h2 : (ownedBy (ids j) L).length = 0 := by
          rw [hcnt j hj]
          omega
        exact List.length_eq_zero.mp h2
      rw [hMC, Nat.div_eq_of_lt (by omega), Nat.mod_eq_of_lt (by omega)]
      constructor
      · intro e he
        rw [entry_ownerPartitionMapOf he]
        rcases hmemdec e he with ⟨i, hi, hieq⟩ | ⟨hjeq, hempty2⟩
        · rw [hieq, hcnteq i (by omega)]
          omega
        · rw [hjeq, hempty]
          simp
      · have hcp := hperm.countP_eq (fun e => decide (e.2.length = 0 + 1))
        rw [Nat.zero_add, hcp]
        rw [show canonKeys C ids cands.length j =
            (List.range cands.length).map ids ++ [ids j] by
          unfold canonKeys
          rw [hD, if_neg hjP]]
        rw [List.map_append, List.countP_append]
        rw [countP_map_eq_countP (fun k => (k, ownedBy k L))
          (fun e => decide (e.2.length = 0 + 1))
          (fun k => decide ((ownedBy k L).length = 0 + 1))
          ((List.range cands.length).map ids) (fun x _ => rfl)]
        rw [countP_map_eq_countP ids
          (fun k => decide ((ownedBy k L).length = 0 + 1))
          (fun _ => true)
          (List.range cands.length)
          (by
            intro x hx
            rw [List.mem_range] at hx
            show decide ((ownedBy (ids x) L).length = 0 + 1) = true
            rw [hcnteq x hx]
            simp)]
        have htrue : (List.range cands.length).countP (fun _ => true) =
            cands.length := by
          simp
        rw [htrue]
        simp [hempty]

theorem simLedger_succ (C : Nat) (ids : Nat → String) (limit : Int)
    (picks : Nat → Nat → Nat) (cands : List String) (r : Nat) :
    simLedger C ids limit picks cands (r + 1) =
      persistClaim (ids (r % C)) 1
        (loadBalance (ids (r % C)) limit 1 (picks r)
          (simLedger C ids limit picks cands r) cands)
        (simLedger C ids limit picks cands r) := rfl

theorem simLedger_inv (C : Nat) (hC : 0 < C) (ids : Nat → String)
    (hinj : ∀ i j, i < C → j < C → ids i = ids j → i = j)
    (hne : ∀ j, j < C → ids j ≠ "")
    (cands : List String) (hcnd : cands.Nodup)
    (limit : Int) (hlimit : 0 < limit)
    (picks : Nat → Nat → Nat) (hpicks : ∀ r n, 0 < n → picks r n < n) :
    ∀ r, r ≤ cands.length →
      simInv C ids cands r (simLedger C ids limit picks cands r) := by
  intro r
  induction r with
  | zero => intro _; exact simInv_zero C ids cands
  | succ r ih =>
    intro hle
    obtain ⟨pid, hpidc, hnew, hlb, hInv2⟩ := simInv_round C hC ids hinj hne cands
      hcnd limit hlimit (picks r) (hpicks r) r (by omega)
      (simLedger C ids limit picks cands r) (ih (by omega))
    rw [simLedger_succ, hlb, persistClaim_ok_some]
    exact hInv2

theorem simLedger_balanced_call (C : Nat) (hC : 0 < C) (ids : Nat → String)
    (hinj : ∀ i j, i < C → j < C → ids i = ids j → i = j)
    (hne : ∀ j, j < C → ids j ≠ "")
    (cands : List String) (hP : 1 ≤ cands.length) (hcnd : cands.Nodup)
    (limit : Int) (hlimit : 0 < limit)
    (picks : Nat → Nat → Nat) (hpicks : ∀ r n, 0 < n → picks r n < n)
    (j : Nat) (hj : j < C) (pick : Nat → Nat) :
    loadBalance (ids j) limit 1 pick
      (simLedger C ids limit picks cands cands.length) cands = .ok [] := by
  have hInvP := simLedger_inv C hC ids hinj hne cands hcnd limit hlimit picks
    hpicks cands.length (Nat.le_refl _)
  have hA : removeInactivePartitionOwnerships 1 limit
      (simLedger C ids limit picks cands cands.length) =
      simLedger C ids limit picks cands cands.length :=
    simInv_active hInvP hne hlimit
  have hAne : removeInactivePartitionOwnerships 1 limit
      (simLedger C ids limit picks cands cands.length) ≠ [] := by
    rw [hA]
    intro hnil
    have := hInvP.2.2.1
    rw [hnil] at this
    simp at this
    omega
  have hbal := simInv_balanced C hC ids hinj hP hInvP j hj
  rw [← hA] at hbal
  exact loadBalance_balanced hAne hbal

theorem simLedger_stable (C : Nat) (hC : 0 < C) (ids : Nat → String)
    (hinj : ∀ i j, i < C → j < C → ids i = ids j → i = j)
    (hne : ∀ j, j < C → ids j ≠ "")
    (cands : List String) (hP : 1 ≤ cands.length) (hcnd : cands.Nodup)
    (limit : Int) (hlimit : 0 < limit)
    (picks : Nat → Nat → Nat) (hpicks : ∀ r n, 0 < n → picks r n < n) :
    ∀ r, cands.length ≤ r →
      simLedger C ids limit picks cands r =
        simLedger C ids limit picks cands cands.length := by
  intro r
  induction r with
  | zero =>
    intro h
    have h0 : cands.length = 0 := by omega
    rw [h0]
  | succ r ih =>
    intro h
    by_cases hcase : cands.length = r + 1
    · rw [hcase]
    · have heq := ih (by omega)
      rw [simLedger_succ, heq,
        simLedger_balanced_call C hC ids hinj hne cands hP hcnd limit hlimit
          picks hpicks (r % C) (Nat.mod_lt r hC) (picks r),
        persistClaim_ok_nil]

/-- C3 (amended: at least one candidate partition is required; with zero
candidates the bootstrap path returns `[undefined]` forever): starting
from the empty ledger, `C ≥ 1` instances calling `loadBalance` in
round-robin order and immediately persisting each returned claim with a
fresh heartbeat reach, after at most `P = |candidates|` rounds, a ledger
whose owner view is balanced for every instance; the ledger never
changes again and every subsequent call by any instance returns the
empty list, for all random draws. -/
theorem C3_round_robin_convergence (C : Nat) (ids : Nat → String)
    (limit : Int) (picks : Nat → Nat → Nat) (cands : List String)
    (hC : 0 < C) (hP : 1 ≤ cands.length) (hcnd : cands.Nodup)
    (hinj : ∀ i j, i < C → j < C → ids i = ids j → i = j)
    (hne : ∀ j, j < C → ids j ≠ "")
    (hlimit : 0 < limit)
    (hpicks : ∀ r n, 0 < n → picks r n < n) :
    (∀ j, j < C → balancedView cands.length
      (ownerPartitionMapOf (ids j) (removeInactivePartitionOwnerships 1 limit
        (simLedger C ids limit picks cands cands.length)))) ∧
    (∀ r, cands.length ≤ r →
      simLedger C ids limit picks cands r =
        simLedger C ids limit picks cands cands.length) ∧
    (∀ r, cands.length ≤ r → ∀ j, j < C → ∀ pick : Nat → Nat,
      loadBalance (ids j) limit 1 pick
        (simLedger C ids limit picks cands r) cands = .ok []) := by
  have hInvP := simLedger_inv C hC ids hinj hne cands hcnd limit hlimit picks
    hpicks cands.length (Nat.le_refl _)
  have hA : removeInactivePartitionOwnerships 1 limit
      (simLedger C ids limit picks cands cands.length) =
      simLedger C ids limit picks cands cands.length :=
    simInv_active hInvP hne hlimit
  refine ⟨?_, ?_, ?_⟩
  · intro j hj
    rw [hA]
    exact (balancedView_iff_isLoadBalanced cands.length _).mpr
      (simInv_balanced C hC ids hinj hP hInvP j hj)
  · exact simLedger_stable C hC ids hinj hne cands hP hcnd limit hlimit picks hpicks
  · intro r hr j hj pick
    rw [simLedger_stable C hC ids hinj hne cands hP hcnd limit hlimit picks
      hpicks r hr]
    exact simLedger_balanced_call C hC ids hinj hne cands hP hcnd limit hlimit
      picks hpicks j hj pick

/-- C3 counterexample: with zero candidate partitions (`P = 0`) and one
instance, the empty ledger after `P = 0` rounds satisfies the balanced
predicate, yet the next call (the bootstrap path) returns a one-element
list containing `undefined` rather than the empty list. -/
theorem C3_counterexample :
    balancedView (List.length ([] : List String))
      (ownerPartitionMapOf "a" (removeInactivePartitionOwnerships 1 1000
        (simLedger 1 (fun _ => "a") 1000 (fun _ _ => 0) [] 0))) ∧
    loadBalance "a" 1000 1 (fun _ => 0)
      (simLedger 1 (fun _ => "a") 1000 (fun _ _ => 0) [] 0) [] ≠ .ok [] := by
  constructor
  · exact ⟨by decide, by decide⟩
  · show loadBalance "a" 1000 1 (fun _ => 0) [] [] ≠ .ok []
    intro hc
    have h : loadBalance "a" 1000 1 (fun _ => 0) [] [] = .ok [none] := by
      rw [loadBalance_bootstrap
        (show removeInactivePartitionOwnerships 1 1000 [] = [] from rfl)]
      simp [jsIndex]
    rw [h] at hc
    simp at hc

/-- C3 witness: three instances and four candidate partitions converge
within four rounds to the two-one-one distribution, and every later
call returns the empty list. -/
theorem C3_witness :
    (∀ j, j < 3 → balancedView (List.length ["0", "1", "2", "3"])
      (ownerPartitionMapOf ((fun j2 => if j2 = 0 then "a" else if j2 = 1 then "b" else "c") j)
        (removeInactivePartitionOwnerships 1 1000
          (simLedger 3 (fun j2 => if j2 = 0 then "a" else if j2 = 1 then "b" else "c")
            1000 (fun _ n => n - 1) ["0", "1", "2", "3"]
            (List.length ["0", "1", "2", "3"]))))) ∧
    (∀ r, List.length ["0", "1", "2", "3"] ≤ r →
      simLedger 3 (fun j2 => if j2 = 0 then "a" else if j2 = 1 then "b" else "c")
          1000 (fun _ n => n - 1) ["0", "1", "2", "3"] r =
        simLedger 3 (fun j2 => if j2 = 0 then "a" else if j2 = 1 then "b" else "c")
          1000 (fun _ n => n - 1) ["0", "1", "2", "3"]
          (List.length ["0", "1", "2", "3"])) ∧
    (∀ r, List.length ["0", "1", "2", "3"] ≤ r → ∀ j, j < 3 → ∀ pick : Nat → Nat,
      loadBalance ((fun j2 => if j2 = 0 then "a" else if j2 = 1 then "b" else "c") j)
        1000 1 pick
        (simLedger 3 (fun j2 => if j2 = 0 then "a" else if j2 = 1 then "b" else "c")
          1000 (fun _ n => n - 1) ["0", "1", "2", "3"] r)
        ["0", "1", "2", "3"] = .ok []) :=
  C3_round_robin_convergence 3
    (fun j2 => if j2 = 0 then "a" else if j2 = 1 then "b" else "c")
    1000 (fun _ n => n - 1) ["0", "1", "2", "3"]
    (by decide) (by decide) (by decide)
    (by
      intro i j hi hj heq
      interval_cases i <;> interval_cases j <;> simp_all)
    (by
      intro j hj
      interval_cases j <;> simp)
    (by decide)
    (fun r n h => by show n - 1 < n; omega)
